import Mathlib

/-!
# chef-guard: the caching handlers of `cache.go`

A shallow embedding of `cacheRequest`, `invalidateCache` and `injectHeaders`
together with the collaborators they call: the `strings` helpers used for the
cache key, the `encoding/json` codec applied to `CachedResponse`, the memcache
client, the upstream transport and the client `http.ResponseWriter`.

A Go `string` and a `[]byte` are sequences of bytes; a string need not be valid
UTF-8. A nil slice or map is `none`, a non-nil one is `some`.
-/

namespace ChefGuard

/-- A byte. -/
abbrev Byte := Fin 256

/-- A Go `string`: a sequence of bytes. -/
abbrev GoString := List Byte

/-- A sequence of Unicode code points. -/
abbrev Runes := List Char

/-- The byte with value `n` modulo 256. -/
def byteOf (n : Nat) : Byte := ⟨n % 256, Nat.mod_lt n (by decide)⟩

/-- The byte of an ASCII character. -/
def ascii (c : Char) : Byte := byteOf c.toNat

/-! ## UTF-8 -/

/-- The UTF-8 form of a code point (`utf8.EncodeRune`). -/
def utf8Encode (c : Char) : List Byte :=
  if c.toNat < 0x80 then [byteOf c.toNat]
  else if c.toNat < 0x800 then [byteOf (0xC0 + c.toNat / 64), byteOf (0x80 + c.toNat % 64)]
  else if c.toNat < 0x10000 then
    [byteOf (0xE0 + c.toNat / 4096), byteOf (0x80 + c.toNat / 64 % 64), byteOf (0x80 + c.toNat % 64)]
  else
    [byteOf (0xF0 + c.toNat / 262144), byteOf (0x80 + c.toNat / 4096 % 64),
      byteOf (0x80 + c.toNat / 64 % 64), byteOf (0x80 + c.toNat % 64)]

/-- The UTF-8 form of a sequence of code points. -/
def utf8EncodeAll : Runes → List Byte
  | [] => []
  | c :: rest => utf8Encode c ++ utf8EncodeAll rest

/-- The bytes of a string literal. -/
def bytesOf (s : String) : GoString := utf8EncodeAll s.toList

/-- A continuation byte, `0x80` to `0xBF`. -/
def isCont (b : Byte) : Bool := decide (0x80 ≤ b.val ∧ b.val ≤ 0xBF)

/-- One step of `utf8.DecodeRune` at the byte `b0` followed by `rest`: the code
point and the input after it, or no code point and the input after `b0` when the
bytes at this place are not valid UTF-8 (overlong forms, surrogates and values
above U+10FFFF included). -/
def decodeRune (b0 : Byte) (rest : List Byte) : Option Char × List Byte :=
  if b0.val < 0x80 then (some (Char.ofNat b0.val), rest)
  else if b0.val < 0xC2 then (none, rest)
  else if b0.val < 0xE0 then
    match rest with
    | b1 :: r =>
      if isCont b1 then (some (Char.ofNat ((b0.val - 0xC0) * 64 + (b1.val - 0x80))), r)
      else (none, rest)
    | [] => (none, rest)
  else if b0.val < 0xF0 then
    match rest with
    | b1 :: b2 :: r =>
      if (if b0.val = 0xE0 then 0xA0 else 0x80) ≤ b1.val ∧
          b1.val ≤ (if b0.val = 0xED then 0x9F else 0xBF) ∧ isCont b2 = true then
        (some (Char.ofNat ((b0.val - 0xE0) * 4096 + (b1.val - 0x80) * 64 + (b2.val - 0x80))), r)
      else (none, rest)
    | _ => (none, rest)
  else if b0.val < 0xF5 then
    match rest with
    | b1 :: b2 :: b3 :: r =>
      if (if b0.val = 0xF0 then 0x90 else 0x80) ≤ b1.val ∧
          b1.val ≤ (if b0.val = 0xF4 then 0x8F else 0xBF) ∧ isCont b2 = true ∧ isCont b3 = true then
        (some (Char.ofNat ((b0.val - 0xF0) * 262144 + (b1.val - 0x80) * 4096
          + (b2.val - 0x80) * 64 + (b3.val - 0x80))), r)
      else (none, rest)
    | _ => (none, rest)
  else (none, rest)

/-- The steps of reading a byte string code point by code point; `none` stands
for a byte that is not valid UTF-8. The first argument bounds the number of
steps; `runes` passes the length of the input. -/
def utf8Steps : Nat → List Byte → List (Option Char)
  | 0, _ => []
  | _ + 1, [] => []
  | fuel + 1, b0 :: rest => (decodeRune b0 rest).1 :: utf8Steps fuel (decodeRune b0 rest).2

/-- The code points of a byte string, `none` for each byte that is not valid UTF-8. -/
def runes (s : List Byte) : List (Option Char) := utf8Steps s.length s

/-- The Unicode replacement character U+FFFD. -/
def replacementChar : Char := Char.ofNat 0xFFFD

/-- The code points of a byte string, U+FFFD for each byte that is not valid UTF-8. -/
def utf8DecodeAll (s : List Byte) : Runes :=
  (runes s).map (fun x => x.getD replacementChar)

/-- The byte string is valid UTF-8: encoding its code points gives it back. -/
def validUTF8 (s : List Byte) : Bool := decide (utf8EncodeAll (utf8DecodeAll s) = s)

/-! ## `strings` helpers used for the cache key -/

/-- `strings.Replace(s, old, new, -1)` for one-byte `old` and `new`
(`cache.go` calls it with `"/"` and `"."`): every occurrence is replaced. -/
def stringsReplace (s : GoString) (old new : Byte) : GoString :=
  s.map (fun c => if c = old then new else c)

/-- `strings.TrimPrefix(s, p)` for a one-byte prefix `p`
(`cache.go` calls it with `"."`): at most one leading `p` is removed. -/
def stringsTrimPrefix (s : GoString) (p : Byte) : GoString :=
  match s with
  | [] => []
  | c :: rest => if c = p then rest else c :: rest

/-! ## `CachedResponse` and its JSON encoding

`cache.go` stores an envelope as `json.Marshal(response)` and reads it back with
`json.Unmarshal(it.Value, &response)`. Both belong to the Go standard library,
not to the repository; they are written out here for the one type they are
applied to. The JSON text is built and read as a sequence of code points; what is
stored is its UTF-8 form, and stored bytes are read code point by code point, a
byte that is not valid UTF-8 as U+FFFD (inside a string that is what the decoder
puts there, elsewhere it is a syntax error either way). Short escapes are
those of Go 1.4 to 1.21 (`\n`, `\r`, `\t`); other releases differ only in which
control characters get a short escape, and the decoder reads every form. No limit
on the nesting depth is modelled.
-/

/-- A Go `map[string][]string`: its entries in ascending key order. -/
abbrev HeaderMap := List (GoString × Option (List GoString))

/-- The struct `CachedResponse` of `cache.go`: `Headers map[string][]string`,
`Body []byte`, `StatusCode int`. -/
structure CachedResponse where
  Headers : Option HeaderMap
  Body : Option (List Byte)
  StatusCode : Int
deriving DecidableEq, Repr

/-- The zero value, as declared by `var response CachedResponse`. -/
def CachedResponse.zero : CachedResponse := ⟨none, none, 0⟩

/-- The digits `"0123456789abcdef"` used for `\u` escapes. -/
def hexDigit (n : Nat) : Char := "0123456789abcdef".toList.getD n '0'

/-- One code point of a string, as `encoding/json` writes it with HTML escaping
on (the default of `json.Marshal`). -/
def encodeRune (c : Char) : List Char :=
  if c = '\\' ∨ c = '"' then ['\\', c]
  else if c = '\n' then ['\\', 'n']
  else if c = '\r' then ['\\', 'r']
  else if c = '\t' then ['\\', 't']
  else if c.toNat < 0x20 ∨ c = '<' ∨ c = '>' ∨ c = '&' then
    ['\\', 'u', '0', '0', hexDigit (c.toNat / 16), hexDigit (c.toNat % 16)]
  else if c.toNat = 0x2028 ∨ c.toNat = 0x2029 then
    ['\\', 'u', '2', '0', '2', hexDigit (c.toNat % 16)]
  else [c]

/-- One step of reading a string as it is written: a code point, or the escape
`\ufffd` for a byte that is not valid UTF-8. -/
def encodeStep : Option Char → List Char
  | none => ['\\', 'u', 'f', 'f', 'f', 'd']
  | some c => encodeRune c

/-- The escaped content of a string, without the quotes. -/
def encodeSteps : List (Option Char) → List Char
  | [] => []
  | x :: rest => encodeStep x ++ encodeSteps rest

/-- A JSON string literal. -/
def encodeString (s : GoString) : List Char := '"' :: (encodeSteps (runes s) ++ ['"'])

/-- The elements of a JSON array of strings, comma separated. -/
def encodeStrings : List GoString → List Char
  | [] => []
  | [s] => encodeString s
  | s :: t :: rest => encodeString s ++ ',' :: encodeStrings (t :: rest)

/-- A `[]string`: `null` when nil, an array otherwise. -/
def encodeStringSlice : Option (List GoString) → List Char
  | none => "null".toList
  | some xs => '[' :: (encodeStrings xs ++ [']'])

/-- Byte order on strings, the order of Go's `<` on strings. -/
def GoString.lt : GoString → GoString → Bool
  | [], [] => false
  | [], _ :: _ => true
  | _ :: _, [] => false
  | a :: as, b :: bs => if a.val < b.val then true else if a = b then GoString.lt as bs else false

/-- Insertion of an entry in front of the first key not below its own. -/
def insertByKey (e : GoString × Option (List GoString)) : HeaderMap → HeaderMap
  | [] => [e]
  | x :: rest => if GoString.lt x.1 e.1 then x :: insertByKey e rest else e :: x :: rest

/-- The entries sorted by key, as `encoding/json` orders map keys. -/
def sortByKey : HeaderMap → HeaderMap
  | [] => []
  | e :: rest => insertByKey e (sortByKey rest)

/-- The members of a JSON object of string slices, comma separated. -/
def encodeMembers : HeaderMap → List Char
  | [] => []
  | [e] => encodeString e.1 ++ ':' :: encodeStringSlice e.2
  | e :: f :: rest => encodeString e.1 ++ ':' :: (encodeStringSlice e.2 ++ ',' :: encodeMembers (f :: rest))

/-- A `map[string][]string`: `null` when nil, an object with sorted keys otherwise. -/
def encodeMap : Option HeaderMap → List Char
  | none => "null".toList
  | some m => '{' :: (encodeMembers (sortByKey m) ++ ['}'])

/-- The standard base64 alphabet. -/
def b64Char (n : Nat) : Char :=
  "ABCDEFGHIJKLMNOPQRSTUVWXYZabcdefghijklmnopqrstuvwxyz0123456789+/".toList.getD n 'A'

/-- Standard base64 with padding (`base64.StdEncoding`). -/
def b64Encode : List Byte → List Char
  | [] => []
  | [a] => [b64Char (a.val / 4), b64Char (a.val % 4 * 16), '=', '=']
  | [a, b] => [b64Char (a.val / 4), b64Char (a.val % 4 * 16 + b.val / 16), b64Char (b.val % 16 * 4), '=']
  | a :: b :: c :: rest =>
    b64Char (a.val / 4) :: b64Char (a.val % 4 * 16 + b.val / 16) ::
      b64Char (b.val % 16 * 4 + c.val / 64) :: b64Char (c.val % 64) :: b64Encode rest

/-- A `[]byte`: `null` when nil, a base64 string otherwise. -/
def encodeBytes : Option (List Byte) → List Char
  | none => "null".toList
  | some bs => '"' :: (b64Encode bs ++ ['"'])

/-- The decimal digit of a number below ten. -/
def digitChar (n : Nat) : Char := "0123456789".toList.getD n '0'

/-- Decimal digits of `n`, most significant first, in front of `acc`. -/
def formatNatAux : Nat → Nat → List Char → List Char
  | 0, _, acc => acc
  | fuel + 1, n, acc =>
    if n < 10 then digitChar n :: acc
    else formatNatAux fuel (n / 10) (digitChar (n % 10) :: acc)

/-- Decimal form of a natural number. -/
def formatNat (n : Nat) : List Char := formatNatAux (n + 1) n []

/-- Decimal form of an `int`. -/
def encodeInt (i : Int) : List Char :=
  if i < 0 then '-' :: formatNat (-i).toNat else formatNat i.toNat

/-- The JSON text of a `CachedResponse`: the fields in declaration order, a nil
map or slice as `null`, map keys sorted, the body in base64. -/
def marshalText (r : CachedResponse) : List Char :=
  "\x7b\"Headers\":".toList ++ encodeMap r.Headers ++ ",\"Body\":".toList ++ encodeBytes r.Body
    ++ ",\"StatusCode\":".toList ++ encodeInt r.StatusCode ++ ['}']

/-- Modelled from the spec: the codec's `encode`, which in `cache.go` is
`json.Marshal(response)` of the Go standard library (not part of the sources).
These are the bytes it returns for a `CachedResponse`; it cannot fail for this
type. -/
def Marshal (r : CachedResponse) : List Byte := utf8EncodeAll (marshalText r)

/-! ## JSON decoding (`json.Unmarshal` into a `CachedResponse`) -/

/-- Value of a hexadecimal digit, either case. -/
def hexVal (c : Char) : Option Nat :=
  if 48 ≤ c.toNat ∧ c.toNat ≤ 57 then some (c.toNat - 48)
  else if 97 ≤ c.toNat ∧ c.toNat ≤ 102 then some (c.toNat - 87)
  else if 65 ≤ c.toNat ∧ c.toNat ≤ 70 then some (c.toNat - 55)
  else none

/-- The number written by four hexadecimal digits. -/
def hex4Val (a b c d : Char) : Option Nat :=
  match hexVal a, hexVal b, hexVal c, hexVal d with
  | some x, some y, some z, some w => some (x * 4096 + y * 256 + z * 16 + w)
  | _, _, _, _ => none

/-- The character after a backslash, for the one-character escapes. -/
def simpleEscape (e : Char) : Option Char :=
  if e = '"' then some '"'
  else if e = '\\' then some '\\'
  else if e = '/' then some '/'
  else if e = 'b' then some (Char.ofNat 8)
  else if e = 'f' then some (Char.ofNat 12)
  else if e = 'n' then some '\n'
  else if e = 'r' then some '\r'
  else if e = 't' then some '\t'
  else none

/-- Prepends a decoded code point to the rest of a scanned string. -/
def consRune (c : Char) : Option (Runes × List Char) → Option (Runes × List Char)
  | none => none
  | some p => some (c :: p.1, p.2)

/-- Reads a string literal after its opening quote: the decoded string and the
input after the closing quote. Control characters and bad escapes are syntax
errors; a `\u` surrogate is combined with a following low surrogate, and is the
replacement character on its own. The first argument bounds the number of
code points read; `scanString` passes the length of the input. -/
def scanStringAux : Nat → List Char → Option (Runes × List Char)
  | 0, _ => none
  | _ + 1, [] => none
  | fuel + 1, c :: rest =>
    if c = '"' then some ([], rest)
    else if c.toNat < 0x20 then none
    else if c = '\\' then
      match rest with
      | [] => none
      | e :: rest1 =>
        match simpleEscape e with
        | some x => consRune x (scanStringAux fuel rest1)
        | none =>
          if e = 'u' then
            match rest1 with
            | h1 :: h2 :: h3 :: h4 :: rest2 =>
              match hex4Val h1 h2 h3 h4 with
              | none => none
              | some r =>
                if 0xD800 ≤ r ∧ r < 0xE000 then
                  match rest2 with
                  | b :: u :: g1 :: g2 :: g3 :: g4 :: rest3 =>
                    match (if b = '\\' ∧ u = 'u' then hex4Val g1 g2 g3 g4 else none) with
                    | some r2 =>
                      if r < 0xDC00 ∧ 0xDC00 ≤ r2 ∧ r2 < 0xE000 then
                        consRune (Char.ofNat ((r - 0xD800) * 1024 + (r2 - 0xDC00) + 0x10000))
                          (scanStringAux fuel rest3)
                      else consRune replacementChar (scanStringAux fuel rest2)
                    | none => consRune replacementChar (scanStringAux fuel rest2)
                  | _ => consRune replacementChar (scanStringAux fuel rest2)
                else consRune (Char.ofNat r) (scanStringAux fuel rest2)
            | _ => none
          else none
    else consRune c (scanStringAux fuel rest)

/-- Reads a string literal after its opening quote. -/
def scanString (input : List Char) : Option (Runes × List Char) :=
  scanStringAux input.length input

/-- A decimal digit. -/
def isDigit (c : Char) : Bool := decide (48 ≤ c.toNat ∧ c.toNat ≤ 57)

/-- The longest run of digits at the front of the input, and what follows. -/
def spanDigits : List Char → List Char × List Char
  | [] => ([], [])
  | c :: rest =>
    if isDigit c then ((c :: (spanDigits rest).1), (spanDigits rest).2) else ([], c :: rest)

/-- A number literal: its sign, the digits of its integer part, and whether it
has neither fraction nor exponent. -/
structure NumLit where
  neg : Bool
  digits : List Char
  isInt : Bool
deriving DecidableEq, Repr

/-- Integer part of a number: `0`, or a nonzero digit followed by digits. -/
def scanIntPart : List Char → Option (List Char × List Char)
  | [] => none
  | c :: rest =>
    if c = '0' then some (['0'], rest)
    else if isDigit c then some (c :: (spanDigits rest).1, (spanDigits rest).2)
    else none

/-- Optional fraction: whether there is one, and the input after it. -/
def scanFrac : List Char → Option (Bool × List Char)
  | [] => some (false, [])
  | c :: rest =>
    if c = '.' then
      (match (spanDigits rest).1 with
       | [] => none
       | _ :: _ => some (true, (spanDigits rest).2))
    else some (false, c :: rest)

/-- Digits of an exponent, after its optional sign. -/
def scanExpDigits (input : List Char) : Option (Bool × List Char) :=
  match (spanDigits input).1 with
  | [] => none
  | _ :: _ => some (true, (spanDigits input).2)

/-- Optional exponent: whether there is one, and the input after it. -/
def scanExp : List Char → Option (Bool × List Char)
  | [] => some (false, [])
  | c :: rest =>
    if c = 'e' ∨ c = 'E' then
      (match rest with
       | [] => none
       | s :: rest1 => if s = '+' ∨ s = '-' then scanExpDigits rest1 else scanExpDigits (s :: rest1))
    else some (false, c :: rest)

/-- Number after its optional minus sign. -/
def scanUnsigned (neg : Bool) (input : List Char) : Option (NumLit × List Char) :=
  match scanIntPart input with
  | none => none
  | some (ds, r1) =>
    match scanFrac r1 with
    | none => none
    | some (f, r2) =>
      match scanExp r2 with
      | none => none
      | some (e, r3) => some (⟨neg, ds, !f && !e⟩, r3)

/-- A JSON number literal. -/
def scanNumber : List Char → Option (NumLit × List Char)
  | [] => none
  | c :: rest => if c = '-' then scanUnsigned true rest else scanUnsigned false (c :: rest)

/-- The input after a fixed run of characters, when it starts with them. -/
def expect : List Char → List Char → Option (List Char)
  | [], input => some input
  | _ :: _, [] => none
  | l :: ls, c :: rest => if c = l then expect ls rest else none

/-- Input without its leading JSON white space. -/
def skipWS : List Char → List Char
  | [] => []
  | c :: rest => if c = ' ' ∨ c = '\t' ∨ c = '\r' ∨ c = '\n' then skipWS rest else c :: rest

/-- A parsed JSON value. -/
inductive JSON where
  | null
  | bool (b : Bool)
  | num (n : NumLit)
  | str (s : Runes)
  | arr (xs : List JSON)
  | obj (kvs : List (Runes × JSON))

/-- Pairs a value with the rest of the input. -/
def withRest {α β : Type} (f : α → β) : Option (α × List Char) → Option (β × List Char)
  | none => none
  | some p => some (f p.1, p.2)

/-- Elements of a non-empty array up to the closing bracket; `pv` reads one value. -/
def parseElems (pv : List Char → Option (JSON × List Char)) :
    Nat → List Char → Option (List JSON × List Char)
  | 0, _ => none
  | n + 1, input =>
    match pv input with
    | none => none
    | some (v, rest) =>
      match skipWS rest with
      | [] => none
      | c :: rest1 =>
        if c = ',' then withRest (fun vs => v :: vs) (parseElems pv n rest1)
        else if c = ']' then some ([v], rest1)
        else none

/-- Members of a non-empty object up to the closing brace; `pv` reads one value. -/
def parseMembers (pv : List Char → Option (JSON × List Char)) :
    Nat → List Char → Option (List (Runes × JSON) × List Char)
  | 0, _ => none
  | n + 1, input =>
    match skipWS input with
    | [] => none
    | q :: rest =>
      if q = '"' then
        match scanString rest with
        | none => none
        | some (k, rest1) =>
          match skipWS rest1 with
          | [] => none
          | c1 :: rest2 =>
            if c1 = ':' then
              match pv rest2 with
              | none => none
              | some (v, rest3) =>
                match skipWS rest3 with
                | [] => none
                | c2 :: rest4 =>
                  if c2 = ',' then withRest (fun kvs => (k, v) :: kvs) (parseMembers pv n rest4)
                  else if c2 = '}' then some ([(k, v)], rest4)
                  else none
            else none
      else none

/-- One JSON value; the first argument bounds the nesting depth. -/
def parseValue : Nat → List Char → Option (JSON × List Char)
  | 0, _ => none
  | d + 1, input =>
    match skipWS input with
    | [] => none
    | c :: rest =>
      if c = '{' then
        match skipWS rest with
        | [] => none
        | c1 :: rest1 =>
          if c1 = '}' then some (JSON.obj [], rest1)
          else withRest JSON.obj (parseMembers (parseValue d) rest.length rest)
      else if c = '[' then
        match skipWS rest with
        | [] => none
        | c1 :: rest1 =>
          if c1 = ']' then some (JSON.arr [], rest1)
          else withRest JSON.arr (parseElems (parseValue d) rest.length rest)
      else if c = '"' then withRest JSON.str (scanString rest)
      else if c = 't' then withRest (fun _ => JSON.bool true) ((expect "rue".toList rest).map (fun r => ((), r)))
      else if c = 'f' then withRest (fun _ => JSON.bool false) ((expect "alse".toList rest).map (fun r => ((), r)))
      else if c = 'n' then withRest (fun _ => JSON.null) ((expect "ull".toList rest).map (fun r => ((), r)))
      else if c = '-' ∨ isDigit c = true then withRest JSON.num (scanNumber (c :: rest))
      else none

/-- A whole document: one value, with only white space around it. -/
def parseDocument (input : List Char) : Option JSON :=
  match parseValue (input.length + 1) input with
  | none => none
  | some (j, rest) => if skipWS rest = [] then some j else none

/-- The errors `json.Unmarshal` reports: invalid JSON text, a value of the wrong
JSON type (or out of range) for its Go target, and bad base64 in a `[]byte`. -/
inductive JSONError where
  | SyntaxError
  | UnmarshalTypeError
  | CorruptInputError
deriving DecidableEq, Repr

/-- The first error met is the one kept. -/
def firstError (a b : Option JSONError) : Option JSONError :=
  match a with
  | some e => some e
  | none => b

/-- Value of a run of decimal digits. -/
def parseNatDigits (ds : List Char) : Nat :=
  ds.foldl (fun acc c => acc * 10 + (c.toNat - 48)) 0

/-- A number literal as a 64-bit `int` (`strconv.ParseInt`): integers in range only. -/
def NumLit.toInt64 (n : NumLit) : Option Int :=
  if n.isInt then
    if n.neg then
      (if parseNatDigits n.digits ≤ 2 ^ 63 then some (-(parseNatDigits n.digits : Int)) else none)
    else
      (if parseNatDigits n.digits < 2 ^ 63 then some (parseNatDigits n.digits : Int) else none)
  else none

/-- A number literal as a `uint8` (`strconv.ParseUint`): unsigned integers below 256. -/
def NumLit.toUint8 (n : NumLit) : Option Byte :=
  if n.isInt ∧ n.neg = false ∧ parseNatDigits n.digits < 256 then some (byteOf (parseNatDigits n.digits))
  else none

/-- A JSON value stored into a `string` that holds `old`. -/
def decodeString (old : GoString) : JSON → GoString × Option JSONError
  | JSON.str s => (utf8EncodeAll s, none)
  | JSON.null => (old, none)
  | _ => (old, some JSONError.UnmarshalTypeError)

/-- The elements of a JSON array stored into a fresh `[]string`. -/
def decodeStrings : List JSON → List GoString × Option JSONError
  | [] => ([], none)
  | j :: rest =>
    ((decodeString [] j).1 :: (decodeStrings rest).1,
      firstError (decodeString [] j).2 (decodeStrings rest).2)

/-- A JSON value stored into a zero `[]string` (a fresh map element). -/
def decodeStringSlice : JSON → Option (List GoString) × Option JSONError
  | JSON.null => (none, none)
  | JSON.arr xs => (some (decodeStrings xs).1, (decodeStrings xs).2)
  | _ => (none, some JSONError.UnmarshalTypeError)

/-- Assignment `m[k] = v` on the sorted entries of a map. -/
def mapInsert (k : GoString) (v : Option (List GoString)) : HeaderMap → HeaderMap
  | [] => [(k, v)]
  | x :: rest =>
    if x.1 = k then (k, v) :: rest
    else if GoString.lt k x.1 then (k, v) :: x :: rest
    else x :: mapInsert k v rest

/-- The members of a JSON object stored one after the other into the map `m`. -/
def decodeMapMembers : List (Runes × JSON) → HeaderMap → HeaderMap × Option JSONError
  | [], m => (m, none)
  | kv :: rest, m =>
    ((decodeMapMembers rest (mapInsert (utf8EncodeAll kv.1) (decodeStringSlice kv.2).1 m)).1,
      firstError (decodeStringSlice kv.2).2
        (decodeMapMembers rest (mapInsert (utf8EncodeAll kv.1) (decodeStringSlice kv.2).1 m)).2)

/-- A JSON value stored into a `map[string][]string` that holds `old`: `null`
makes it nil, an object adds its members (to a new map when `old` is nil). -/
def decodeHeaders (old : Option HeaderMap) : JSON → Option HeaderMap × Option JSONError
  | JSON.null => (none, none)
  | JSON.obj kvs =>
    (some (decodeMapMembers kvs (old.getD [])).1, (decodeMapMembers kvs (old.getD [])).2)
  | _ => (old, some JSONError.UnmarshalTypeError)

/-- Value of a base64 character. -/
def b64Val (c : Char) : Option Nat :=
  if 65 ≤ c.toNat ∧ c.toNat ≤ 90 then some (c.toNat - 65)
  else if 97 ≤ c.toNat ∧ c.toNat ≤ 122 then some (c.toNat - 71)
  else if 48 ≤ c.toNat ∧ c.toNat ≤ 57 then some (c.toNat + 4)
  else if c = '+' then some 62
  else if c = '/' then some 63
  else none

/-- Prepends decoded bytes to the rest of a decoded body. -/
def consBytes (bs : List Byte) : Option (List Byte) → Option (List Byte)
  | none => none
  | some rest => some (bs ++ rest)

/-- Decoding of padded base64 text, four characters at a time; padding is only
accepted in the last group. -/
def b64DecodeQuads : List Char → Option (List Byte)
  | [] => some []
  | c1 :: c2 :: c3 :: c4 :: rest =>
    match b64Val c1, b64Val c2 with
    | some v1, some v2 =>
      if c3 = '=' then
        (if c4 = '=' ∧ rest = [] then some [byteOf (v1 * 4 + v2 / 16)] else none)
      else
        match b64Val c3 with
        | none => none
        | some v3 =>
          if c4 = '=' then
            (if rest = [] then some [byteOf (v1 * 4 + v2 / 16), byteOf (v2 % 16 * 16 + v3 / 4)]
             else none)
          else
            match b64Val c4 with
            | none => none
            | some v4 =>
              consBytes [byteOf (v1 * 4 + v2 / 16), byteOf (v2 % 16 * 16 + v3 / 4),
                byteOf (v3 % 4 * 64 + v4)] (b64DecodeQuads rest)
    | _, _ => none
  | _ => none

/-- The decoding `base64.StdEncoding` does: carriage returns and line feeds are skipped. -/
def b64Decode (s : List Char) : Option (List Byte) :=
  b64DecodeQuads (s.filter (fun c => !(c = '\r' || c = '\n')))

/-- A JSON value stored into the element of a `[]byte` that holds `old`. -/
def decodeByte (old : Byte) : JSON → Byte × Option JSONError
  | JSON.num n =>
    (match n.toUint8 with
     | some b => (b, none)
     | none => (old, some JSONError.UnmarshalTypeError))
  | JSON.null => (old, none)
  | _ => (old, some JSONError.UnmarshalTypeError)

/-- The elements of a JSON array stored into a `[]byte` whose elements were `old`. -/
def decodeByteElems : List JSON → List Byte → List Byte × Option JSONError
  | [], _ => ([], none)
  | j :: rest, old =>
    ((decodeByte (old.headD 0) j).1 :: (decodeByteElems rest old.tail).1,
      firstError (decodeByte (old.headD 0) j).2 (decodeByteElems rest old.tail).2)

/-- A JSON value stored into a `[]byte` that holds `old`: a string is base64, an
array is stored element by element, `null` makes it nil. -/
def decodeBytes (old : Option (List Byte)) : JSON → Option (List Byte) × Option JSONError
  | JSON.null => (none, none)
  | JSON.str s =>
    (match b64Decode s with
     | some bs => (some bs, none)
     | none => (old, some JSONError.CorruptInputError))
  | JSON.arr xs => (some (decodeByteElems xs (old.getD [])).1, (decodeByteElems xs (old.getD [])).2)
  | _ => (old, some JSONError.UnmarshalTypeError)

/-- A JSON value stored into an `int` that holds `old`. -/
def decodeInt (old : Int) : JSON → Int × Option JSONError
  | JSON.num n =>
    (match n.toInt64 with
     | some i => (i, none)
     | none => (old, some JSONError.UnmarshalTypeError))
  | JSON.null => (old, none)
  | _ => (old, some JSONError.UnmarshalTypeError)

/-- Case folding of a code point as far as it matters for ASCII field names:
lower-case ASCII letters, the long s and the Kelvin sign fold to upper-case ASCII. -/
def foldRune (c : Char) : Char :=
  if 97 ≤ c.toNat ∧ c.toNat ≤ 122 then Char.ofNat (c.toNat - 32)
  else if c.toNat = 0x17F then 'S'
  else if c.toNat = 0x212A then 'K'
  else c

/-- The fields of `CachedResponse`. -/
inductive Field where
  | Headers
  | Body
  | StatusCode
deriving DecidableEq, Repr

/-- The field an object key selects: the one with that exact name, else the one
whose name matches without regard to case. -/
def fieldNamed (key : Runes) : Option Field :=
  if key = "Headers".toList then some Field.Headers
  else if key = "Body".toList then some Field.Body
  else if key = "StatusCode".toList then some Field.StatusCode
  else if key.map foldRune = "HEADERS".toList then some Field.Headers
  else if key.map foldRune = "BODY".toList then some Field.Body
  else if key.map foldRune = "STATUSCODE".toList then some Field.StatusCode
  else none

/-- One object member stored into the struct; keys naming no field are skipped. -/
def decodeMember (acc : CachedResponse × Option JSONError) (kv : Runes × JSON) :
    CachedResponse × Option JSONError :=
  match fieldNamed kv.1 with
  | none => acc
  | some Field.Headers =>
    ({ acc.1 with Headers := (decodeHeaders acc.1.Headers kv.2).1 },
      firstError acc.2 (decodeHeaders acc.1.Headers kv.2).2)
  | some Field.Body =>
    ({ acc.1 with Body := (decodeBytes acc.1.Body kv.2).1 },
      firstError acc.2 (decodeBytes acc.1.Body kv.2).2)
  | some Field.StatusCode =>
    ({ acc.1 with StatusCode := (decodeInt acc.1.StatusCode kv.2).1 },
      firstError acc.2 (decodeInt acc.1.StatusCode kv.2).2)

/-- A JSON value stored into a `CachedResponse` that holds `r`. A type error is
recorded and decoding goes on, so `r` may be left partly updated. -/
def decodeStruct (r : CachedResponse) : JSON → CachedResponse × Option JSONError
  | JSON.null => (r, none)
  | JSON.obj kvs => kvs.foldl decodeMember (r, none)
  | _ => (r, some JSONError.UnmarshalTypeError)

/-- Modelled from the spec: the codec's `decode`, which in `cache.go` is
`json.Unmarshal(data, &response)` of the Go standard library (not part of the
sources): the updated struct and the error returned. Invalid JSON leaves the
struct untouched; a type error is returned after the rest has been decoded. -/
def Unmarshal (data : List Byte) (r : CachedResponse) : CachedResponse × Option JSONError :=
  match parseDocument (utf8DecodeAll data) with
  | none => (r, some JSONError.SyntaxError)
  | some j => decodeStruct r j

/-! ## The collaborators of the handlers -/

/-- The fields of a `*url.URL` the handlers read, and the text `String()` gives. -/
structure URL where
  Path : GoString
  RawQuery : GoString
  Text : GoString
deriving DecidableEq, Repr

/-- An `*http.Request`; `URL` is a pointer and may be nil. -/
structure Request where
  Method : GoString
  URL : Option URL
  Body : List Byte
deriving DecidableEq, Repr

/-- An upstream `*http.Response`: status, headers, and what `ioutil.ReadAll`
returns for its body (the bytes read and the error, if any). -/
structure Response where
  StatusCode : Int
  Header : Option HeaderMap
  ReadAll : List Byte × Option GoString
deriving DecidableEq, Repr

/-- What the handlers take from outside `cache.go`: the configuration, the
functions of the repository that are not in this file, the standard library's
URL parser, MIME header canonicalisation and map iteration order, and the
upstream transport. -/
structure Env where
  /-- The setting `cfg.Chef.ErchefIP`. -/
  ErchefIP : GoString
  /-- The setting `cfg.Chef.ErchefPort`. -/
  ErchefPort : Int
  /-- The function `dumpBody(r)`: the body or an error. -/
  dumpBody : Request → Except GoString (List Byte)
  /-- The function `url.Parse`: a URL, or a nil URL and an error. -/
  urlParse : GoString → Except GoString URL
  /-- The call `http.DefaultTransport.RoundTrip(r)`. -/
  RoundTrip : Request → Except GoString Response
  /-- The function `checkHTTPResponse(resp, allowed)`: the response as the call
  leaves it (it is handed the response and its body) and the error returned. -/
  checkHTTPResponse : Response → List Int → Response × Option GoString
  /-- The function `textproto.CanonicalMIMEHeaderKey`, applied by `http.Header.Add`. -/
  canonicalKey : GoString → GoString
  /-- The order in which `range` visits the entries of a map. -/
  rangeOrder : HeaderMap → HeaderMap
  /-- The function `copyHeaders(dst, src)`: the headers of `dst` afterwards. -/
  copyHeaders : (GoString → List GoString) → Option HeaderMap → (GoString → List GoString)

/-- A call on the client's `http.ResponseWriter`. -/
inductive WriterCall where
  | errorHandler (message : GoString) (status : Int)
  | WriteHeader (status : Int)
  | Write (body : Option (List Byte))
deriving DecidableEq, Repr

/-- The client's `http.ResponseWriter`: the header map `w.Header()` (a name
without entry has no values) and the calls made so far. -/
structure ResponseWriter where
  header : GoString → List GoString
  calls : List WriterCall

/-- Modelled from the spec: `errorHandler(w, message, status)` is a function of
the repository outside `cache.go`; it responds to the client with the given
status and a descriptive message, which is one status-plus-body write. -/
def errorHandler (w : ResponseWriter) (message : GoString) (status : Int) : ResponseWriter :=
  { w with calls := w.calls ++ [WriterCall.errorHandler message status] }

/-- The response header has been sent: every call on the writer sends it. -/
def ResponseWriter.wroteHeader (w : ResponseWriter) : Bool := !w.calls.isEmpty

/-- The call `w.WriteHeader(status)` on the writer of `net/http`: once the header
has been sent the call is superfluous and ignored; otherwise a status outside
100 to 999 makes the writer panic (`none`). -/
def ResponseWriter.WriteHeader (w : ResponseWriter) (status : Int) : Option ResponseWriter :=
  if w.wroteHeader = true ∨ (100 ≤ status ∧ status ≤ 999) then
    some { w with calls := w.calls ++ [WriterCall.WriteHeader status] }
  else none

/-- The call `w.Write(body)`. -/
def ResponseWriter.Write (w : ResponseWriter) (body : Option (List Byte)) : ResponseWriter :=
  { w with calls := w.calls ++ [WriterCall.Write body] }

/-- The number of status-plus-body writes among the calls: responses sent by
`errorHandler` and status lines sent by `WriteHeader`. -/
def terminalWrites : List WriterCall → Nat
  | [] => 0
  | WriterCall.errorHandler _ _ :: rest => terminalWrites rest + 1
  | WriterCall.WriteHeader _ :: rest => terminalWrites rest + 1
  | WriterCall.Write _ :: rest => terminalWrites rest

/-- The constant `http.StatusBadGateway`. -/
def StatusBadGateway : Int := 502

/-- The constant `http.StatusOK`. -/
def StatusOK : Int := 200

/-- The constant `http.StatusCreated`. -/
def StatusCreated : Int := 201

/-- The errors of the memcache client the handlers tell apart. -/
inductive CacheError where
  | ErrCacheMiss
  | ErrServer
deriving DecidableEq, Repr

/-- Modelled from the spec: the cache service behind `memcacheClient()` with the
protocol get / set / delete by key and a bounded value size. A reachable cache
stores what is set, unless the value is longer than `limit`, and reports a miss
for an absent key; an unreachable one fails every call without an item. Keys
are taken as they are given; the client's check of their syntax is left out. -/
structure Memcache where
  reachable : Bool
  limit : Nat
  store : GoString → Option (List Byte)

/-- The call `mc.Get(key)`: the item's value (nil when there is an error) and the error. -/
def Memcache.Get (mc : Memcache) (key : GoString) : Option (List Byte) × Option CacheError :=
  if mc.reachable then
    match mc.store key with
    | some v => (some v, none)
    | none => (none, some CacheError.ErrCacheMiss)
  else (none, some CacheError.ErrServer)

/-- The call `mc.Set(&memcache.Item{Key: key, Value: value})`: the cache
afterwards and the error. A value over the size bound is refused. -/
def Memcache.Set (mc : Memcache) (key : GoString) (value : List Byte) :
    Memcache × Option CacheError :=
  if mc.reachable then
    if value.length ≤ mc.limit then
      ({ mc with store := fun k => if k = key then some value else mc.store k }, none)
    else (mc, some CacheError.ErrServer)
  else (mc, some CacheError.ErrServer)

/-- The call `mc.Delete(key)`: the cache afterwards and the error. -/
def Memcache.Delete (mc : Memcache) (key : GoString) : Memcache × Option CacheError :=
  if mc.reachable then
    match mc.store key with
    | some _ => ({ mc with store := fun k => if k = key then none else mc.store k }, none)
    | none => (mc, some CacheError.ErrCacheMiss)
  else (mc, some CacheError.ErrServer)

/-- What is recorded in the metrics registry. -/
inductive MetricEvent where
  | timer (name : GoString)
  | counterInc (name : GoString) (by_ : Int)
deriving DecidableEq, Repr

/-- Everything a handler can change: the cache, the client response, the
metrics recorded, the requests sent upstream and the values set in the cache. -/
structure World where
  mc : Memcache
  w : ResponseWriter
  metrics : List MetricEvent
  upstreamCalls : List Request
  cacheSets : List (GoString × List Byte)

/-- How a handler call ends: it returns, or it panics (a nil pointer, or the
response writer refusing a status). -/
inductive Outcome where
  | returned (s : World)
  | panicked (s : World)

/-- The handler call ended in a panic. -/
def Outcome.isPanic : Outcome → Bool
  | Outcome.returned _ => false
  | Outcome.panicked _ => true

/-- The world a handler call ends in. -/
def Outcome.world : Outcome → World
  | Outcome.returned s => s
  | Outcome.panicked s => s

/-- The call `dst.Add(key, value)` of `http.Header`. -/
def headerAdd (canonicalKey : GoString → GoString) (dst : GoString → List GoString)
    (key value : GoString) : GoString → List GoString :=
  fun k => if k = canonicalKey key then dst k ++ [value] else dst k

/-- The inner loop of `injectHeaders`: `for _, value := range values { dst.Add(key, value) }`. -/
def injectValues (canonicalKey : GoString → GoString) (key : GoString) :
    List GoString → (GoString → List GoString) → (GoString → List GoString)
  | [], dst => dst
  | value :: rest, dst => injectValues canonicalKey key rest (headerAdd canonicalKey dst key value)

/-- The outer loop of `injectHeaders` over the entries in the order visited. -/
def injectEntries (canonicalKey : GoString → GoString) :
    HeaderMap → (GoString → List GoString) → (GoString → List GoString)
  | [], dst => dst
  | (key, values) :: rest, dst =>
    injectEntries canonicalKey rest (injectValues canonicalKey key (values.getD []) dst)

/-- The function `injectHeaders(dst, src)` of `cache.go`. -/
def injectHeaders (env : Env) (dst : GoString → List GoString) (src : Option HeaderMap) :
    GoString → List GoString :=
  match src with
  | none => dst
  | some m => injectEntries env.canonicalKey (env.rangeOrder m) dst

/-- The text `fmt.Sprintf("http://%s:%d%s?%s", cfg.Chef.ErchefIP, cfg.Chef.ErchefPort,
path, rawQuery)`. -/
def upstreamURL (env : Env) (path rawQuery : GoString) : GoString :=
  bytesOf "http://" ++ env.ErchefIP ++ ascii ':' ::
    (utf8EncodeAll (encodeInt env.ErchefPort) ++ path ++ ascii '?' :: rawQuery)

/-! ## The handlers -/

/-- The cache key of `cacheRequest` (lines 91 to 94): `metricKey`, which is
`urlPath` with `/` replaced by `.` and one leading `.` trimmed. -/
def cacheRequestKey (urlPath : GoString) : GoString :=
  stringsTrimPrefix (stringsReplace urlPath (ascii '/') (ascii '.')) (ascii '.')

/-- The cache key of `invalidateCache` (lines 47 and 48). -/
def invalidateCacheKey (path : GoString) : GoString :=
  stringsTrimPrefix (stringsReplace path (ascii '/') (ascii '.')) (ascii '.')

/-- The function passed to `t.Time` on a miss (lines 113 to 137): the world and
the variable `response` afterwards. Its `return` statements leave this function
only. -/
def cacheRequestFetch (env : Env) (r : Request) (u : URL) (response : CachedResponse)
    (s : World) : World × CachedResponse :=
  match env.RoundTrip r with
  | Except.error err =>
    ({ s with
        upstreamCalls := s.upstreamCalls ++ [r]
        w := errorHandler s.w (bytesOf "Call to " ++ u.Text ++ bytesOf " failed: " ++ err)
          StatusBadGateway },
      response)
  | Except.ok resp0 =>
    -- the error of `checkHTTPResponse` is looked at and dropped (lines 123 to 125)
    let resp := (env.checkHTTPResponse resp0 [StatusOK, StatusCreated]).1
    match resp.ReadAll with
    | (_, some err) =>
      ({ s with
          upstreamCalls := s.upstreamCalls ++ [r]
          w := errorHandler s.w
            (bytesOf "Failed to get body from call to " ++ u.Text ++ bytesOf ": " ++ err)
            StatusBadGateway },
        response)
    | (responseBody, none) =>
      ({ s with upstreamCalls := s.upstreamCalls ++ [r] },
        { Headers := resp.Header, Body := some responseBody, StatusCode := resp.StatusCode })

/-- The end of `cacheRequest` (lines 153 to 156): `response` is rendered to the
client; the handler panics when the writer refuses the status. -/
def cacheRequestRender (env : Env) (response : CachedResponse) (s : World) : Outcome :=
  match ResponseWriter.WriteHeader
      { s.w with header := injectHeaders env s.w.header response.Headers }
      response.StatusCode with
  | none =>
    Outcome.panicked
      { s with w := { s.w with header := injectHeaders env s.w.header response.Headers } }
  | some w => Outcome.returned { s with w := ResponseWriter.Write w response.Body }

/-- The handler returned by `cacheRequest` (lines 76 to 157). -/
def cacheRequest (env : Env) (r : Request) (s : World) : Outcome :=
  match r.URL with
  | none => Outcome.panicked s
  | some u0 =>
    match env.dumpBody r with
    | Except.error err =>
      Outcome.returned { s with
        w := errorHandler s.w
          (bytesOf "Failed to get body from call to " ++ u0.Text ++ bytesOf ": " ++ err)
          StatusBadGateway }
    | Except.ok _ =>
      let urlPath := u0.Path
      match env.urlParse (upstreamURL env u0.Path u0.RawQuery) with
      | Except.error _ =>
        -- `r.URL` is nil now, and the error message reads `r.URL.Path`
        Outcome.panicked s
      | Except.ok u =>
        let r1 : Request := { r with URL := some u }
        let metricKey := cacheRequestKey urlPath
        let cacheKey := metricKey
        let cacheTimerKey := metricKey ++ ascii '.' :: bytesOf "cache.query"
        let s1 : World := { s with metrics := s.metrics ++ [MetricEvent.timer cacheTimerKey] }
        match s1.mc.Get cacheKey with
        | (_, some CacheError.ErrCacheMiss) =>
          let timerKey := metricKey ++ ascii '.' :: bytesOf "time"
          let fetched := cacheRequestFetch env r1 u CachedResponse.zero s1
          let s2 : World :=
            { fetched.1 with metrics := fetched.1.metrics ++ [MetricEvent.timer timerKey] }
          let response := fetched.2
          let jsonData := Marshal response
          let counterKey := metricKey ++ ascii '.' :: bytesOf "cache.miss"
          let s3 : World :=
            { s2 with
              mc := (s2.mc.Set cacheKey jsonData).1
              cacheSets := s2.cacheSets ++ [(cacheKey, jsonData)]
              metrics := s2.metrics ++ [MetricEvent.counterInc counterKey 1] }
          cacheRequestRender env response s3
        | (it, _) =>
          let counterKey := metricKey ++ ascii '.' :: bytesOf "cache.hit"
          let s2 : World :=
            { s1 with metrics := s1.metrics ++ [MetricEvent.counterInc counterKey 1] }
          match it with
          | none => Outcome.panicked s2
          | some value =>
            let response := (Unmarshal value CachedResponse.zero).1
            cacheRequestRender env response s2

/-- The handler returned by `invalidateCache` (lines 44 to 71). -/
def invalidateCache (env : Env) (r : Request) (s : World) : Outcome :=
  match r.URL with
  | none => Outcome.panicked s
  | some u0 =>
    let cacheKey := invalidateCacheKey u0.Path
    let s1 : World := { s with mc := (s.mc.Delete cacheKey).1 }
    let parsed : Option URL :=
      match env.urlParse (upstreamURL env u0.Path u0.RawQuery) with
      | Except.error _ => none
      | Except.ok u => some u
    let r1 : Request := { r with URL := parsed }
    let s2 : World := { s1 with upstreamCalls := s1.upstreamCalls ++ [r1] }
    match env.RoundTrip r1 with
    | Except.error err =>
      (match parsed with
       | none => Outcome.panicked s2
       | some u =>
         Outcome.returned { s2 with
           w := errorHandler s2.w (bytesOf "Call to " ++ u.Text ++ bytesOf " failed: " ++ err)
             StatusBadGateway })
    | Except.ok resp =>
      let respBody := resp.ReadAll.1
      match ResponseWriter.WriteHeader
          { s2.w with header := env.copyHeaders s2.w.header resp.Header } resp.StatusCode with
      | none =>
        Outcome.panicked
          { s2 with w := { s2.w with header := env.copyHeaders s2.w.header resp.Header } }
      | some w => Outcome.returned { s2 with w := ResponseWriter.Write w (some respBody) }

/-! ## The JSON text and values an encoded `CachedResponse` parses to -/

/-- The escaped content of a string given by its code points. -/
def encodeRunes : Runes → List Char
  | [] => []
  | c :: rest => encodeRune c ++ encodeRunes rest

/-- The JSON string literal of a string given by its code points. -/
def quoteRunes (s : Runes) : List Char := '"' :: (encodeRunes s ++ ['"'])

/-- The JSON value a `[]string` is written as. -/
def sliceJSON : Option (List GoString) → JSON
  | none => JSON.null
  | some xs => JSON.arr (xs.map (fun s => JSON.str (utf8DecodeAll s)))

/-- The JSON members a `map[string][]string` is written as. -/
def mapJSON (m : HeaderMap) : List (Runes × JSON) :=
  m.map (fun e => (utf8DecodeAll e.1, sliceJSON e.2))

/-- The entries of a map are kept in strictly ascending key order. -/
def KeysAscending (m : HeaderMap) : Prop :=
  List.Pairwise (fun a b => GoString.lt a.1 b.1 = true) m

instance (m : HeaderMap) : Decidable (KeysAscending m) :=
  inferInstanceAs (Decidable
    (List.Pairwise (fun (a b : GoString × Option (List GoString)) => GoString.lt a.1 b.1 = true) m))

/-- Every string of the list is valid UTF-8. -/
def allValid (xs : List GoString) : Bool := xs.all validUTF8

/-- Every header name and every header value of the map is valid UTF-8. -/
def validStrings (m : HeaderMap) : Bool :=
  m.all (fun e => validUTF8 e.1 && allValid (e.2.getD []))

/-- The header map is nil, or a Go map (entries in ascending key order, so no
key twice) whose names and values are valid UTF-8. -/
def HeadersOK : Option HeaderMap → Prop
  | none => True
  | some m => KeysAscending m ∧ validStrings m = true

instance (h : Option HeaderMap) : Decidable (HeadersOK h) :=
  match h with
  | none => isTrue trivial
  | some m => inferInstanceAs (Decidable (KeysAscending m ∧ validStrings m = true))

/-- A well-formed envelope: its header map is a Go map with names and values in
valid UTF-8, and its status is a 64-bit `int`. -/
def CachedResponse.WellFormed (e : CachedResponse) : Prop :=
  HeadersOK e.Headers ∧ -(2 ^ 63) ≤ e.StatusCode ∧ e.StatusCode < 2 ^ 63

instance (e : CachedResponse) : Decidable e.WellFormed :=
  inferInstanceAs (Decidable (HeadersOK e.Headers ∧ -(2 ^ 63) ≤ e.StatusCode ∧ e.StatusCode < 2 ^ 63))

/-- The JSON value a `map[string][]string` is written as. -/
def headersJSON : Option HeaderMap → JSON
  | none => JSON.null
  | some m => JSON.obj (mapJSON (sortByKey m))

/-- The JSON value a `[]byte` is written as. -/
def bytesJSON : Option (List Byte) → JSON
  | none => JSON.null
  | some bs => JSON.str (b64Encode bs)

/-- The number literal an `int` is written as. -/
def intLit (i : Int) : NumLit :=
  if i < 0 then ⟨true, formatNat (-i).toNat, true⟩ else ⟨false, formatNat i.toNat, true⟩

/-- The JSON value a `CachedResponse` is written as. -/
def structJSON (e : CachedResponse) : JSON :=
  JSON.obj [("Headers".toList, headersJSON e.Headers), ("Body".toList, bytesJSON e.Body),
    ("StatusCode".toList, JSON.num (intLit e.StatusCode))]

/-! ## Reading a header map -/

/-- The values `m[name]` of a header map, none when the name has no entry. -/
def mapValues : HeaderMap → GoString → List GoString
  | [], _ => []
  | (k, v) :: rest, name => if k = name then v.getD [] else mapValues rest name

/-- The values of a header name in the headers of an envelope or response. -/
def headerValues (h : Option HeaderMap) (name : GoString) : List GoString :=
  match h with
  | none => []
  | some m => mapValues m name

/-- The values `injectHeaders` adds under `name`: those of every entry visited
whose canonical key is `name`, in the order visited. -/
def collectValues (canonicalKey : GoString → GoString) (name : GoString) :
    HeaderMap → List GoString
  | [] => []
  | (k, v) :: rest =>
    if name = canonicalKey k then v.getD [] ++ collectValues canonicalKey name rest
    else collectValues canonicalKey name rest

/-- Every header name of the map is in canonical MIME form. -/
def CanonicalKeys (canonicalKey : GoString → GoString) : Option HeaderMap → Prop
  | none => True
  | some m => ∀ kv ∈ m, canonicalKey kv.1 = kv.1

/-! ## Sample inputs -/

/-- A byte allowed in a header field name (a token character). -/
def isTokenByte (b : Byte) : Bool :=
  decide ((48 ≤ b.val ∧ b.val ≤ 57) ∨ (65 ≤ b.val ∧ b.val ≤ 90) ∨ (97 ≤ b.val ∧ b.val ≤ 122)
    ∨ b.val ∈ [33, 35, 36, 37, 38, 39, 42, 43, 45, 46, 94, 95, 96, 124, 126])

/-- The letters of a header name put in canonical case: upper case at the start
and after a hyphen, lower case elsewhere. -/
def canonicalCase : Bool → GoString → GoString
  | _, [] => []
  | upper, b :: rest =>
    if upper = true ∧ 97 ≤ b.val ∧ b.val ≤ 122 then byteOf (b.val - 32) :: canonicalCase false rest
    else if upper = false ∧ 65 ≤ b.val ∧ b.val ≤ 90 then
      byteOf (b.val + 32) :: canonicalCase false rest
    else b :: canonicalCase (decide (b = ascii '-')) rest

/-- The function `textproto.CanonicalMIMEHeaderKey` of the standard library: a
name holding a byte that is no token character is returned as it is. -/
def canonicalMIMEHeaderKey (s : GoString) : GoString :=
  if s.all isTokenByte then canonicalCase true s else s

/-- A client response writer nothing has been written to. -/
def freshWriter : ResponseWriter := ⟨fun _ => [], []⟩

/-- The world before a request, around the cache `mc`. -/
def freshWorld (mc : Memcache) : World := ⟨mc, freshWriter, [], [], []⟩

/-- A reachable cache holding nothing, with the value bound of one megabyte. -/
def emptyCache : Memcache := ⟨true, 1048576, fun _ => none⟩

/-- A reachable cache holding nothing, with a value bound of sixteen bytes. -/
def smallCache : Memcache := ⟨true, 16, fun _ => none⟩

/-- A reachable cache holding `value` under `key` and nothing else. -/
def cacheWith (key : GoString) (value : List Byte) : Memcache :=
  ⟨true, 1048576, fun k => if k = key then some value else none⟩

/-- A cache whose server cannot be reached. -/
def downCache : Memcache := ⟨false, 1048576, fun _ => none⟩

/-- The request `GET /nodes/foo`. -/
def getNodesFoo : Request :=
  ⟨bytesOf "GET", some ⟨bytesOf "/nodes/foo", [], bytesOf "/nodes/foo"⟩, []⟩

/-- An environment for requests to `/nodes/foo`: the upstream is `127.0.0.1:8000`
and answers every request with `upstream`; the URL parser accepts its input when
`parses` is set; `checkHTTPResponse` reports a status that is not allowed and
leaves the response as it is. -/
def sampleEnv (parses : Bool) (upstream : Except GoString Response) : Env where
  ErchefIP := bytesOf "127.0.0.1"
  ErchefPort := 8000
  dumpBody := fun r => Except.ok r.Body
  urlParse := fun raw =>
    if parses then Except.ok ⟨bytesOf "/nodes/foo", [], raw⟩
    else Except.error (bytesOf "invalid URL escape")
  RoundTrip := fun _ => upstream
  checkHTTPResponse := fun resp allowed =>
    (resp, if resp.StatusCode ∈ allowed then none else some (bytesOf "unexpected status"))
  canonicalKey := canonicalMIMEHeaderKey
  rangeOrder := fun m => m
  copyHeaders := fun dst src => injectEntries canonicalMIMEHeaderKey (src.getD []) dst

/-- An upstream that refuses the connection. -/
def refused : Except GoString Response := Except.error (bytesOf "connection refused")

/-- An upstream answering `200` with a JSON content type and the body `hi`. -/
def upstreamOK : Except GoString Response :=
  Except.ok ⟨200, some [(bytesOf "Content-Type", some [bytesOf "application/json"])],
    ([104, 105], none)⟩

/-- An upstream answering `200` with the body `hi` and a header value `caf` followed
by the byte `0xE9`, which is not valid UTF-8. -/
def upstreamLatin1 : Except GoString Response :=
  Except.ok ⟨200, some [(bytesOf "X-Name", some [[99, 97, 102, 233]])], ([104, 105], none)⟩

/-- An envelope with a header of two values, a header of one value and a body. -/
def sampleEnvelope : CachedResponse :=
  ⟨some [(bytesOf "Content-Type", some [bytesOf "application/json"]),
      (bytesOf "Set-Cookie", some [bytesOf "a=1", bytesOf "b=<2>"])],
    some [123, 125], 200⟩

/-- An envelope whose one header name is written in lower case. -/
def lowerCaseEnvelope : CachedResponse :=
  ⟨some [(bytesOf "content-type", some [bytesOf "text/plain"])], some [104, 105], 200⟩

/-! ## UTF-8: decoding what was encoded -/

theorem byteOf_val (n : Nat) (h : n < 256) : (byteOf n).val = n := by
  simp only [byteOf]; omega

theorem decodeRune_utf8Encode (c : Char) (tail : List Byte) :
    ∃ b0 rest, utf8Encode c ++ tail = b0 :: rest ∧ decodeRune b0 rest = (some c, tail) := by
  have hc : Char.ofNat c.toNat = c := Char.ofNat_toNat c
  have hv : c.toNat < 0xD800 ∨ (0xDFFF < c.toNat ∧ c.toNat < 0x110000) := c.valid
  unfold utf8Encode
  split_ifs with h1 h2 h3
  · refine ⟨byteOf c.toNat, tail, rfl, ?_⟩
    have e := byteOf_val c.toNat (by omega)
    simp only [decodeRune, e, h1, if_true, hc]
  · refine ⟨byteOf (0xC0 + c.toNat / 64), byteOf (0x80 + c.toNat % 64) :: tail, rfl, ?_⟩
    have e0 := byteOf_val (0xC0 + c.toNat / 64) (by omega)
    have e1 := byteOf_val (0x80 + c.toNat % 64) (by omega)
    have k0 : ¬ (0xC0 + c.toNat / 64 < 0x80) := by omega
    have k1 : ¬ (0xC0 + c.toNat / 64 < 0xC2) := by omega
    have k2 : 0xC0 + c.toNat / 64 < 0xE0 := by omega
    have kc : isCont (byteOf (0x80 + c.toNat % 64)) = true := by
      simp only [isCont, e1, decide_eq_true_eq]; omega
    have kv : (0xC0 + c.toNat / 64 - 0xC0) * 64 + (0x80 + c.toNat % 64 - 0x80) = c.toNat := by omega
    simp only [decodeRune, e0, e1, k0, k1, k2, kc, kv, hc, if_true, if_false]
  · refine ⟨byteOf (0xE0 + c.toNat / 4096),
      byteOf (0x80 + c.toNat / 64 % 64) :: byteOf (0x80 + c.toNat % 64) :: tail, rfl, ?_⟩
    have e0 := byteOf_val (0xE0 + c.toNat / 4096) (by omega)
    have e1 := byteOf_val (0x80 + c.toNat / 64 % 64) (by omega)
    have e2 := byteOf_val (0x80 + c.toNat % 64) (by omega)
    have k0 : ¬ (0xE0 + c.toNat / 4096 < 0x80) := by omega
    have k1 : ¬ (0xE0 + c.toNat / 4096 < 0xC2) := by omega
    have k2 : ¬ (0xE0 + c.toNat / 4096 < 0xE0) := by omega
    have k3 : 0xE0 + c.toNat / 4096 < 0xF0 := by omega
    have kc : isCont (byteOf (0x80 + c.toNat % 64)) = true := by
      simp only [isCont, e2, decide_eq_true_eq]; omega
    have klo : (if 0xE0 + c.toNat / 4096 = 0xE0 then 0xA0 else 0x80) ≤ 0x80 + c.toNat / 64 % 64 := by
      split_ifs <;> omega
    have khi : 0x80 + c.toNat / 64 % 64 ≤ (if 0xE0 + c.toNat / 4096 = 0xED then 0x9F else 0xBF) := by
      split_ifs <;> omega
    have kv : (0xE0 + c.toNat / 4096 - 0xE0) * 4096 + (0x80 + c.toNat / 64 % 64 - 0x80) * 64
        + (0x80 + c.toNat % 64 - 0x80) = c.toNat := by omega
    simp only [decodeRune, e0, e1, e2, k0, k1, k2, k3, kc, klo, khi, kv, hc, if_true, if_false,
      and_self]
  · refine ⟨byteOf (0xF0 + c.toNat / 262144),
      byteOf (0x80 + c.toNat / 4096 % 64) :: byteOf (0x80 + c.toNat / 64 % 64)
        :: byteOf (0x80 + c.toNat % 64) :: tail, rfl, ?_⟩
    have e0 := byteOf_val (0xF0 + c.toNat / 262144) (by omega)
    have e1 := byteOf_val (0x80 + c.toNat / 4096 % 64) (by omega)
    have e2 := byteOf_val (0x80 + c.toNat / 64 % 64) (by omega)
    have e3 := byteOf_val (0x80 + c.toNat % 64) (by omega)
    have k0 : ¬ (0xF0 + c.toNat / 262144 < 0x80) := by omega
    have k1 : ¬ (0xF0 + c.toNat / 262144 < 0xC2) := by omega
    have k2 : ¬ (0xF0 + c.toNat / 262144 < 0xE0) := by omega
    have k3 : ¬ (0xF0 + c.toNat / 262144 < 0xF0) := by omega
    have k4 : 0xF0 + c.toNat / 262144 < 0xF5 := by omega
    have kc2 : isCont (byteOf (0x80 + c.toNat / 64 % 64)) = true := by
      simp only [isCont, e2, decide_eq_true_eq]; omega
    have kc3 : isCont (byteOf (0x80 + c.toNat % 64)) = true := by
      simp only [isCont, e3, decide_eq_true_eq]; omega
    have klo : (if 0xF0 + c.toNat / 262144 = 0xF0 then 0x90 else 0x80)
        ≤ 0x80 + c.toNat / 4096 % 64 := by
      split_ifs <;> omega
    have khi : 0x80 + c.toNat / 4096 % 64
        ≤ (if 0xF0 + c.toNat / 262144 = 0xF4 then 0x8F else 0xBF) := by
      split_ifs <;> omega
    have kv : (0xF0 + c.toNat / 262144 - 0xF0) * 262144 + (0x80 + c.toNat / 4096 % 64 - 0x80) * 4096
        + (0x80 + c.toNat / 64 % 64 - 0x80) * 64 + (0x80 + c.toNat % 64 - 0x80) = c.toNat := by omega
    simp only [decodeRune, e0, e1, e2, e3, k0, k1, k2, k3, k4, kc2, kc3, klo, khi, kv, hc, if_true,
      if_false, and_self]

theorem utf8Steps_nil (fuel : Nat) : utf8Steps fuel [] = [] := by
  cases fuel <;> rfl

theorem utf8Steps_utf8EncodeAll (cs : Runes) : ∀ (fuel : Nat) (tail : List Byte),
    utf8Steps (cs.length + fuel) (utf8EncodeAll cs ++ tail) = cs.map some ++ utf8Steps fuel tail := by
  induction cs with
  | nil => intro fuel tail; simp [utf8EncodeAll]
  | cons c cs ih =>
    intro fuel tail
    obtain ⟨b0, rest, h1, h2⟩ := decodeRune_utf8Encode c (utf8EncodeAll cs ++ tail)
    have hl : (c :: cs).length + fuel = (cs.length + fuel) + 1 := by simp; omega
    rw [hl]
    simp only [utf8EncodeAll, List.append_assoc]
    rw [h1, utf8Steps, h2]
    simp only [ih fuel tail, List.map_cons, List.cons_append]

theorem utf8Encode_length_pos (c : Char) : 0 < (utf8Encode c).length := by
  unfold utf8Encode; split_ifs <;> simp

theorem utf8EncodeAll_length (cs : Runes) : cs.length ≤ (utf8EncodeAll cs).length := by
  induction cs with
  | nil => simp [utf8EncodeAll]
  | cons c cs ih =>
    have := utf8Encode_length_pos c
    simp only [utf8EncodeAll, List.length_append, List.length_cons]; omega

theorem runes_utf8EncodeAll (cs : Runes) : runes (utf8EncodeAll cs) = cs.map some := by
  have hl := utf8EncodeAll_length cs
  obtain ⟨f, hf⟩ : ∃ f, (utf8EncodeAll cs).length = cs.length + f :=
    ⟨(utf8EncodeAll cs).length - cs.length, by omega⟩
  have := utf8Steps_utf8EncodeAll cs f []
  rw [List.append_nil, utf8Steps_nil, List.append_nil] at this
  rw [runes, hf, this]

theorem utf8DecodeAll_utf8EncodeAll (cs : Runes) : utf8DecodeAll (utf8EncodeAll cs) = cs := by
  rw [utf8DecodeAll, runes_utf8EncodeAll]
  simp [List.map_map, Function.comp_def]

/-! ## The codec: decoding what was encoded -/

theorem hexVal_hexDigit (d : Nat) (h : d < 16) : hexVal (hexDigit d) = some d := by
  interval_cases d <;> rfl

theorem hexVal_zero : hexVal '0' = some 0 := rfl
theorem hexVal_two : hexVal '2' = some 2 := rfl

theorem scanStringAux_u (fuel : Nat) (h1 h2 h3 h4 : Char) (r : Nat) (tail : List Char)
    (hr : hex4Val h1 h2 h3 h4 = some r) (hs : ¬ (0xD800 ≤ r ∧ r < 0xE000)) :
    scanStringAux (fuel + 1) ('\\' :: 'u' :: h1 :: h2 :: h3 :: h4 :: tail)
      = consRune (Char.ofNat r) (scanStringAux fuel tail) := by
  have e1 : simpleEscape 'u' = none := rfl
  have e2 : ¬ ('\\' = '"') := by decide
  have e3 : ¬ ('\\'.toNat < 0x20) := by decide
  rw [scanStringAux]
  simp only [e2, e3, if_false, if_true, e1, hr, hs]

theorem scanStringAux_encodeRune (c : Char) (fuel : Nat) (tail : List Char) :
    scanStringAux (fuel + 1) (encodeRune c ++ tail) = consRune c (scanStringAux fuel tail) := by
  unfold encodeRune
  split_ifs with h1 h2 h3 h4 h5 h6
  · rcases h1 with h | h <;> subst h <;> rfl
  · subst h2; rfl
  · subst h3; rfl
  · subst h4; rfl
  · have hlt : c.toNat < 64 := by
      rcases h5 with h | h | h | h
      · omega
      · subst h; decide
      · subst h; decide
      · subst h; decide
    have ha := hexVal_hexDigit (c.toNat / 16) (by omega)
    have hb := hexVal_hexDigit (c.toNat % 16) (by omega)
    have hr : hex4Val '0' '0' (hexDigit (c.toNat / 16)) (hexDigit (c.toNat % 16)) = some c.toNat := by
      simp only [hex4Val, hexVal_zero, ha, hb]
      congr 1; omega
    have := scanStringAux_u fuel _ _ _ _ _ tail hr (by omega)
    simpa using this
  · have hb := hexVal_hexDigit (c.toNat % 16) (by omega)
    have hr : hex4Val '2' '0' '2' (hexDigit (c.toNat % 16)) = some c.toNat := by
      simp only [hex4Val, hexVal_zero, hexVal_two, hb]
      congr 1; omega
    have := scanStringAux_u fuel _ _ _ _ _ tail hr (by omega)
    simpa using this
  · have hq : c ≠ '"' := fun h => h1 (Or.inr h)
    have hb : c ≠ '\\' := fun h => h1 (Or.inl h)
    have hn : ¬ c.toNat < 0x20 := fun h => h5 (Or.inl h)
    simp only [List.singleton_append, scanStringAux, hq, hb, hn, if_false]
    rfl

theorem scanStringAux_encodeRunes (s : Runes) : ∀ (fuel : Nat) (rest : List Char),
    s.length < fuel → scanStringAux fuel (encodeRunes s ++ '"' :: rest) = some (s, rest) := by
  induction s with
  | nil =>
    intro fuel rest h
    obtain ⟨f, rfl⟩ : ∃ f, fuel = f + 1 := ⟨fuel - 1, by simp at h; omega⟩
    rfl
  | cons c s ih =>
    intro fuel rest h
    obtain ⟨f, rfl⟩ : ∃ f, fuel = f + 1 := ⟨fuel - 1, by simp at h; omega⟩
    simp only [encodeRunes, List.append_assoc]
    rw [scanStringAux_encodeRune, ih f rest (by simpa using h)]
    rfl

theorem encodeRune_length_pos (c : Char) : 0 < (encodeRune c).length := by
  unfold encodeRune; split_ifs <;> simp

theorem encodeRunes_length (s : Runes) : s.length ≤ (encodeRunes s).length := by
  induction s with
  | nil => simp [encodeRunes]
  | cons c s ih =>
    have := encodeRune_length_pos c
    simp only [encodeRunes, List.length_append, List.length_cons]; omega

/-- Scanning the text after the opening quote of an encoded string gives the string back. -/
theorem scanString_encodeRunes (s : Runes) (rest : List Char) :
    scanString (encodeRunes s ++ '"' :: rest) = some (s, rest) := by
  unfold scanString
  apply scanStringAux_encodeRunes
  have := encodeRunes_length s
  simp only [List.length_append, List.length_cons]; omega

theorem encodeSteps_map_some (cs : Runes) : encodeSteps (cs.map some) = encodeRunes cs := by
  induction cs with
  | nil => rfl
  | cons c cs ih => simp only [List.map_cons, encodeSteps, encodeStep, encodeRunes, ih]

theorem utf8_of_valid (s : GoString) (h : validUTF8 s = true) :
    utf8EncodeAll (utf8DecodeAll s) = s := of_decide_eq_true h

theorem runes_of_valid (s : GoString) (h : validUTF8 s = true) :
    runes s = (utf8DecodeAll s).map some := by
  have e := utf8_of_valid s h
  have := runes_utf8EncodeAll (utf8DecodeAll s)
  rw [e] at this
  exact this

/-- A valid UTF-8 string is written as the literal of its code points. -/
theorem encodeString_valid (s : GoString) (h : validUTF8 s = true) :
    encodeString s = quoteRunes (utf8DecodeAll s) := by
  rw [encodeString, runes_of_valid s h, encodeSteps_map_some]
  rfl

theorem parseValue_string (d : Nat) (s : Runes) (rest : List Char) :
    parseValue (d + 1) ('"' :: (encodeRunes s ++ '"' :: rest)) = some (JSON.str s, rest) := by
  have h : skipWS ('"' :: (encodeRunes s ++ '"' :: rest)) = '"' :: (encodeRunes s ++ '"' :: rest) := rfl
  rw [parseValue, h]
  have e1 : ¬ ('"' = '{') := by decide
  have e2 : ¬ ('"' = '[') := by decide
  simp only [e1, e2, if_false, if_true, scanString_encodeRunes, withRest]

theorem parseValue_quoteRunes (d : Nat) (s : Runes) (rest : List Char) :
    parseValue (d + 1) (quoteRunes s ++ rest) = some (JSON.str s, rest) := by
  have := parseValue_string d s rest
  simpa [quoteRunes] using this

theorem parseValue_encodeString (d : Nat) (s : GoString) (rest : List Char)
    (h : validUTF8 s = true) :
    parseValue (d + 1) (encodeString s ++ rest) = some (JSON.str (utf8DecodeAll s), rest) := by
  rw [encodeString_valid s h]
  exact parseValue_quoteRunes d _ rest

theorem parseValue_null (d : Nat) (rest : List Char) :
    parseValue (d + 1) ('n' :: 'u' :: 'l' :: 'l' :: rest) = some (JSON.null, rest) := rfl

theorem parseElems_comma (pv : List Char → Option (JSON × List Char)) (n : Nat)
    (input tail : List Char) (v : JSON) (h : pv input = some (v, ',' :: tail)) :
    parseElems pv (n + 1) input = withRest (fun vs => v :: vs) (parseElems pv n tail) := by
  rw [parseElems, h]
  rfl

theorem parseElems_close (pv : List Char → Option (JSON × List Char)) (n : Nat)
    (input tail : List Char) (v : JSON) (h : pv input = some (v, ']' :: tail)) :
    parseElems pv (n + 1) input = some ([v], tail) := by
  rw [parseElems, h]
  rfl

theorem parseMembers_comma (pv : List Char → Option (JSON × List Char)) (n : Nat)
    (k : Runes) (input tail : List Char) (v : JSON) (h : pv input = some (v, ',' :: tail)) :
    parseMembers pv (n + 1) (quoteRunes k ++ ':' :: input)
      = withRest (fun kvs => (k, v) :: kvs) (parseMembers pv n tail) := by
  have hs : skipWS (quoteRunes k ++ ':' :: input) = '"' :: (encodeRunes k ++ '"' :: ':' :: input) := by
    simp [quoteRunes, skipWS]
  rw [parseMembers, hs]
  simp only [if_true, scanString_encodeRunes]
  have h2 : skipWS (':' :: input) = ':' :: input := rfl
  simp only [h2, if_true, h]
  rfl

theorem parseMembers_close (pv : List Char → Option (JSON × List Char)) (n : Nat)
    (k : Runes) (input tail : List Char) (v : JSON) (h : pv input = some (v, '}' :: tail)) :
    parseMembers pv (n + 1) (quoteRunes k ++ ':' :: input) = some ([(k, v)], tail) := by
  have hs : skipWS (quoteRunes k ++ ':' :: input) = '"' :: (encodeRunes k ++ '"' :: ':' :: input) := by
    simp [quoteRunes, skipWS]
  rw [parseMembers, hs]
  simp only [if_true, scanString_encodeRunes]
  have h2 : skipWS (':' :: input) = ':' :: input := rfl
  simp only [h2, if_true, h]
  rfl

theorem allValid_cons (s : GoString) (xs : List GoString) (h : allValid (s :: xs) = true) :
    validUTF8 s = true ∧ allValid xs = true := by
  simpa [allValid] using h

theorem encodeStrings_cons (s : GoString) (xs : List GoString) :
    ∃ t, encodeStrings (s :: xs) = '"' :: t := by
  cases xs with
  | nil => exact ⟨_, rfl⟩
  | cons t r => exact ⟨_, rfl⟩

theorem encodeStrings_length (xs : List GoString) : xs.length ≤ (encodeStrings xs).length := by
  induction xs with
  | nil => simp
  | cons s xs ih =>
    cases xs with
    | nil => simp [encodeStrings, encodeString]
    | cons t r =>
      simp only [encodeStrings, encodeString, List.length_cons, List.length_append] at ih ⊢
      omega

theorem parseElems_encodeStrings (d : Nat) (xs : List GoString) :
    ∀ (n : Nat) (rest : List Char), xs ≠ [] → xs.length ≤ n → allValid xs = true →
      parseElems (parseValue (d + 1)) n (encodeStrings xs ++ ']' :: rest)
        = some (xs.map (fun s => JSON.str (utf8DecodeAll s)), rest) := by
  induction xs with
  | nil => intro n rest h; exact absurd rfl h
  | cons s xs ih =>
    intro n rest _ hn hv
    obtain ⟨hs, hxs⟩ := allValid_cons s xs hv
    obtain ⟨m, rfl⟩ : ∃ m, n = m + 1 := ⟨n - 1, by simp at hn; omega⟩
    cases xs with
    | nil =>
      rw [parseElems_close _ _ _ rest (JSON.str (utf8DecodeAll s))]
      · rfl
      · simpa [encodeStrings] using parseValue_encodeString d s (']' :: rest) hs
    | cons t r =>
      rw [parseElems_comma _ _ _ (encodeStrings (t :: r) ++ ']' :: rest)
        (JSON.str (utf8DecodeAll s))]
      · rw [ih m rest (by simp) (by simpa using hn) hxs]
        rfl
      · simpa [encodeStrings] using
          parseValue_encodeString d s (',' :: (encodeStrings (t :: r) ++ ']' :: rest)) hs

theorem parseValue_array (d : Nat) (t : List Char) :
    parseValue (d + 2) ('[' :: '"' :: t)
      = withRest JSON.arr (parseElems (parseValue (d + 1)) ('"' :: t).length ('"' :: t)) := rfl

theorem parseValue_encodeStringSlice (d : Nat) (v : Option (List GoString)) (rest : List Char)
    (hv : allValid (v.getD []) = true) :
    parseValue (d + 2) (encodeStringSlice v ++ rest) = some (sliceJSON v, rest) := by
  cases v with
  | none => rfl
  | some xs =>
    cases xs with
    | nil => rfl
    | cons s xs =>
      obtain ⟨t, ht⟩ := encodeStrings_cons s xs
      have hlen := encodeStrings_length (s :: xs)
      have key := parseElems_encodeStrings d (s :: xs)
        (encodeStrings (s :: xs) ++ ']' :: rest).length rest (by simp)
        (by simp only [List.length_append]; omega) hv
      have hb : encodeStringSlice (some (s :: xs)) ++ rest
          = '[' :: (encodeStrings (s :: xs) ++ ']' :: rest) := by
        simp [encodeStringSlice]
      rw [hb]
      rw [ht] at key ⊢
      rw [List.cons_append] at key ⊢
      rw [parseValue_array, key]
      rfl

theorem validStrings_cons (e : GoString × Option (List GoString)) (m : HeaderMap)
    (h : validStrings (e :: m) = true) :
    validUTF8 e.1 = true ∧ allValid (e.2.getD []) = true ∧ validStrings m = true := by
  simpa [validStrings, and_assoc] using h

theorem encodeMembers_cons (e : GoString × Option (List GoString)) (m : HeaderMap) :
    ∃ t, encodeMembers (e :: m) = '"' :: t := by
  cases m with
  | nil => exact ⟨_, rfl⟩
  | cons f r => exact ⟨_, rfl⟩

theorem encodeMembers_length (m : HeaderMap) : m.length ≤ (encodeMembers m).length := by
  induction m with
  | nil => simp
  | cons e m ih =>
    cases m with
    | nil => simp [encodeMembers, encodeString]
    | cons f r =>
      simp only [encodeMembers, encodeString, List.length_cons, List.length_append] at ih ⊢
      omega

theorem parseMembers_encodeMembers (d : Nat) (m : HeaderMap) :
    ∀ (n : Nat) (rest : List Char), m ≠ [] → m.length ≤ n → validStrings m = true →
      parseMembers (parseValue (d + 2)) n (encodeMembers m ++ '}' :: rest)
        = some (mapJSON m, rest) := by
  induction m with
  | nil => intro n rest h; exact absurd rfl h
  | cons e m ih =>
    intro n rest _ hn hv
    obtain ⟨hk, hvs, hm⟩ := validStrings_cons e m hv
    obtain ⟨k, rfl⟩ : ∃ k, n = k + 1 := ⟨n - 1, by simp at hn; omega⟩
    cases m with
    | nil =>
      have h := parseMembers_close (parseValue (d + 2)) k (utf8DecodeAll e.1)
        (encodeStringSlice e.2 ++ '}' :: rest) rest (sliceJSON e.2)
        (parseValue_encodeStringSlice d e.2 ('}' :: rest) hvs)
      rw [← encodeString_valid e.1 hk] at h
      simpa [encodeMembers, mapJSON] using h
    | cons f r =>
      have h := parseMembers_comma (parseValue (d + 2)) k (utf8DecodeAll e.1)
        (encodeStringSlice e.2 ++ ',' :: (encodeMembers (f :: r) ++ '}' :: rest))
        (encodeMembers (f :: r) ++ '}' :: rest) (sliceJSON e.2)
        (parseValue_encodeStringSlice d e.2 (',' :: (encodeMembers (f :: r) ++ '}' :: rest)) hvs)
      rw [ih k rest (by simp) (by simpa using hn) hm] at h
      rw [← encodeString_valid e.1 hk] at h
      simpa [encodeMembers, mapJSON, withRest] using h

theorem parseValue_object (d : Nat) (t : List Char) :
    parseValue (d + 1) ('{' :: '"' :: t)
      = withRest JSON.obj (parseMembers (parseValue d) ('"' :: t).length ('"' :: t)) := rfl

theorem parseValue_encodeMembers (d : Nat) (m : HeaderMap) (rest : List Char)
    (hv : validStrings m = true) :
    parseValue (d + 3) ('{' :: (encodeMembers m ++ '}' :: rest)) = some (JSON.obj (mapJSON m), rest) := by
  cases m with
  | nil => rfl
  | cons e m =>
    obtain ⟨t, ht⟩ := encodeMembers_cons e m
    have hlen := encodeMembers_length (e :: m)
    have key := parseMembers_encodeMembers d (e :: m)
      (encodeMembers (e :: m) ++ '}' :: rest).length rest (by simp)
      (by simp only [List.length_append]; omega) hv
    rw [ht] at key ⊢
    rw [List.cons_append] at key ⊢
    rw [parseValue_object, key]
    rfl

theorem GoString.lt_asymm : ∀ (a b : GoString), GoString.lt a b = true → GoString.lt b a = false := by
  intro a
  induction a with
  | nil => intro b h; cases b <;> simp [GoString.lt] at h ⊢
  | cons x xs ih =>
    intro b h
    cases b with
    | nil => simp [GoString.lt] at h
    | cons y ys =>
      simp only [GoString.lt] at h ⊢
      by_cases hxy : x.val < y.val
      · have h1 : ¬ y.val < x.val := by omega
        have h2 : ¬ y = x := by intro e; subst e; omega
        simp [h1, h2]
      · simp only [hxy, if_false] at h
        by_cases he : x = y
        · subst he
          simp only [if_true] at h
          simp [ih ys h]
        · simp [he] at h

theorem GoString.lt_irrefl (a : GoString) : GoString.lt a a = false := by
  cases h : GoString.lt a a with
  | false => rfl
  | true => have := GoString.lt_asymm a a h; simp [h] at this

theorem sortByKey_of_ascending (m : HeaderMap) (h : KeysAscending m) : sortByKey m = m := by
  induction m with
  | nil => rfl
  | cons e m ih =>
    have hp := List.pairwise_cons.mp h
    rw [sortByKey, ih hp.2]
    cases m with
    | nil => rfl
    | cons f r =>
      have hef : GoString.lt e.1 f.1 = true := hp.1 f (by simp)
      have := GoString.lt_asymm _ _ hef
      simp [insertByKey, this]

theorem mapInsert_append (k : GoString) (v : Option (List GoString)) (m : HeaderMap)
    (h : ∀ x ∈ m, GoString.lt x.1 k = true) : mapInsert k v m = m ++ [(k, v)] := by
  induction m with
  | nil => rfl
  | cons x m ih =>
    have hx : GoString.lt x.1 k = true := h x (by simp)
    have h1 : ¬ x.1 = k := by
      intro e; rw [e, GoString.lt_irrefl] at hx; exact Bool.false_ne_true hx
    have h2 : GoString.lt k x.1 = false := GoString.lt_asymm _ _ hx
    simp only [mapInsert, h1, h2, if_false, List.cons_append, Bool.false_eq_true]
    rw [ih (fun y hy => h y (by simp [hy]))]

theorem decodeStrings_map_str (xs : List GoString) (hv : allValid xs = true) :
    decodeStrings (xs.map (fun s => JSON.str (utf8DecodeAll s))) = (xs, none) := by
  induction xs with
  | nil => rfl
  | cons s xs ih =>
    obtain ⟨hs, hxs⟩ := allValid_cons s xs hv
    simp [decodeStrings, ih hxs, decodeString, firstError, utf8_of_valid s hs]

theorem decodeStringSlice_sliceJSON (v : Option (List GoString))
    (hv : allValid (v.getD []) = true) :
    decodeStringSlice (sliceJSON v) = (v, none) := by
  cases v with
  | none => rfl
  | some xs =>
    have := decodeStrings_map_str xs hv
    simp [sliceJSON, decodeStringSlice, this]

theorem decodeMapMembers_mapJSON (m : HeaderMap) : ∀ (acc : HeaderMap),
    KeysAscending (acc ++ m) → validStrings m = true →
      decodeMapMembers (mapJSON m) acc = (acc ++ m, none) := by
  induction m with
  | nil => intro acc _ _; simp [mapJSON, decodeMapMembers]
  | cons e m ih =>
    intro acc h hv
    obtain ⟨hk, hvs, hm⟩ := validStrings_cons e m hv
    have hins : mapInsert e.1 e.2 acc = acc ++ [e] := by
      apply mapInsert_append
      intro x hx
      exact (List.pairwise_append.mp h).2.2 x hx e (by simp)
    have h2 : KeysAscending ((acc ++ [e]) ++ m) := by simpa using h
    have := ih (acc ++ [e]) h2 hm
    simp only [mapJSON, List.map_cons, decodeMapMembers, decodeStringSlice_sliceJSON e.2 hvs,
      utf8_of_valid e.1 hk, hins]
    simp only [mapJSON] at this
    rw [this]
    simp [firstError]

theorem decodeHeaders_mapJSON (old : Option HeaderMap) (m : HeaderMap) (h : KeysAscending m)
    (hv : validStrings m = true) (hold : old = none) :
    decodeHeaders old (JSON.obj (mapJSON m)) = (some m, none) := by
  subst hold
  have := decodeMapMembers_mapJSON m [] (by simpa using h) hv
  simp [decodeHeaders, this]

theorem b64Val_b64Char (n : Nat) (h : n < 64) : b64Val (b64Char n) = some n := by
  interval_cases n <;> rfl

theorem b64Char_ne_pad (n : Nat) (h : n < 64) : ¬ b64Char n = '=' := by
  interval_cases n <;> decide

theorem byteOf_q1 (a : Byte) : byteOf (a.val / 4 * 4 + a.val % 4 * 16 / 16) = a := by
  apply Fin.ext
  have := a.isLt
  simp only [byteOf]
  omega

theorem byteOf_q1' (a b : Byte) : byteOf (a.val / 4 * 4 + (a.val % 4 * 16 + b.val / 16) / 16) = a := by
  apply Fin.ext
  have := a.isLt
  have := b.isLt
  simp only [byteOf]
  omega

theorem byteOf_q2 (a b : Byte) :
    byteOf ((a.val % 4 * 16 + b.val / 16) % 16 * 16 + b.val % 16 * 4 / 4) = b := by
  apply Fin.ext
  have := a.isLt
  have := b.isLt
  simp only [byteOf]
  omega

theorem byteOf_q2' (a b c : Byte) :
    byteOf ((a.val % 4 * 16 + b.val / 16) % 16 * 16 + (b.val % 16 * 4 + c.val / 64) / 4) = b := by
  apply Fin.ext
  have := a.isLt
  have := b.isLt
  have := c.isLt
  simp only [byteOf]
  omega

theorem byteOf_q3 (b c : Byte) :
    byteOf ((b.val % 16 * 4 + c.val / 64) % 4 * 64 + c.val % 64) = c := by
  apply Fin.ext
  have := b.isLt
  have := c.isLt
  simp only [byteOf]
  omega

theorem b64DecodeQuads_b64Encode (bs : List Byte) : b64DecodeQuads (b64Encode bs) = some bs := by
  induction bs using b64Encode.induct with
  | case1 => rfl
  | case2 a =>
    have ha := a.isLt
    simp only [b64Encode, b64DecodeQuads, b64Val_b64Char (a.val / 4) (by omega),
      b64Val_b64Char (a.val % 4 * 16) (by omega), if_true, and_self, byteOf_q1]
  | case3 a b =>
    have ha := a.isLt
    have hb := b.isLt
    simp only [b64Encode, b64DecodeQuads, b64Val_b64Char (a.val / 4) (by omega),
      b64Val_b64Char (a.val % 4 * 16 + b.val / 16) (by omega),
      b64Val_b64Char (b.val % 16 * 4) (by omega),
      b64Char_ne_pad (b.val % 16 * 4) (by omega), if_true, if_false, byteOf_q1', byteOf_q2]
  | case4 a b c rest ih =>
    have ha := a.isLt
    have hb := b.isLt
    have hc := c.isLt
    simp only [b64Encode, b64DecodeQuads, b64Val_b64Char (a.val / 4) (by omega),
      b64Val_b64Char (a.val % 4 * 16 + b.val / 16) (by omega),
      b64Val_b64Char (b.val % 16 * 4 + c.val / 64) (by omega),
      b64Val_b64Char (c.val % 64) (by omega),
      b64Char_ne_pad (b.val % 16 * 4 + c.val / 64) (by omega),
      b64Char_ne_pad (c.val % 64) (by omega), if_false, byteOf_q1', byteOf_q2', byteOf_q3, ih]
    rfl

/-- The characters base64 text is made of. -/
theorem b64Encode_chars (bs : List Byte) :
    ∀ c ∈ b64Encode bs, c = '=' ∨ ∃ n, n < 64 ∧ c = b64Char n := by
  induction bs using b64Encode.induct with
  | case1 => simp [b64Encode]
  | case2 a =>
    have ha := a.isLt
    intro c hc
    simp only [b64Encode, List.mem_cons, List.mem_singleton, List.not_mem_nil, or_false] at hc
    rcases hc with h | h | h | h
    · exact Or.inr ⟨_, by omega, h⟩
    · exact Or.inr ⟨_, by omega, h⟩
    · exact Or.inl h
    · exact Or.inl h
  | case3 a b =>
    have ha := a.isLt
    have hb := b.isLt
    intro c hc
    simp only [b64Encode, List.mem_cons, List.mem_singleton, List.not_mem_nil, or_false] at hc
    rcases hc with h | h | h | h
    · exact Or.inr ⟨_, by omega, h⟩
    · exact Or.inr ⟨_, by omega, h⟩
    · exact Or.inr ⟨_, by omega, h⟩
    · exact Or.inl h
  | case4 a b c rest ih =>
    have ha := a.isLt
    have hb := b.isLt
    have hc := c.isLt
    intro x hx
    simp only [b64Encode, List.mem_cons] at hx
    rcases hx with h | h | h | h | h
    · exact Or.inr ⟨_, by omega, h⟩
    · exact Or.inr ⟨_, by omega, h⟩
    · exact Or.inr ⟨_, by omega, h⟩
    · exact Or.inr ⟨_, by omega, h⟩
    · exact ih x h

theorem b64_plain (c : Char) (h : c = '=' ∨ ∃ n, n < 64 ∧ c = b64Char n) :
    encodeRune c = [c] ∧ (!(c = '\r' || c = '\n')) = true := by
  rcases h with h | ⟨n, hn, h⟩
  · subst h; exact ⟨rfl, rfl⟩
  · subst h
    interval_cases n <;> exact ⟨rfl, rfl⟩

theorem encodeRunes_plain (s : List Char) (h : ∀ c ∈ s, encodeRune c = [c]) : encodeRunes s = s := by
  induction s with
  | nil => rfl
  | cons c s ih =>
    simp only [encodeRunes, h c (by simp), ih (fun x hx => h x (by simp [hx]))]
    rfl

theorem encodeRunes_b64Encode (bs : List Byte) : encodeRunes (b64Encode bs) = b64Encode bs :=
  encodeRunes_plain _ (fun c hc => (b64_plain c (b64Encode_chars bs c hc)).1)

theorem b64Decode_b64Encode (bs : List Byte) : b64Decode (b64Encode bs) = some bs := by
  unfold b64Decode
  rw [List.filter_eq_self.mpr (fun c hc => (b64_plain c (b64Encode_chars bs c hc)).2)]
  exact b64DecodeQuads_b64Encode bs

theorem parseValue_encodeBytes (d : Nat) (b : Option (List Byte)) (rest : List Char) :
    parseValue (d + 1) (encodeBytes b ++ rest)
      = some (bytesJSON b, rest) := by
  cases b with
  | none => rfl
  | some bs =>
    have := parseValue_string d (b64Encode bs) rest
    rw [encodeRunes_b64Encode] at this
    simpa [encodeBytes] using this

theorem decodeBytes_encoded (old : Option (List Byte)) (b : Option (List Byte)) :
    decodeBytes old (bytesJSON b) = (b, none) := by
  cases b with
  | none => rfl
  | some bs => simp [bytesJSON, decodeBytes, b64Decode_b64Encode]

theorem digitChar_spec (n : Nat) (h : n < 10) :
    isDigit (digitChar n) = true ∧ (digitChar n).toNat - 48 = n ∧ (0 < n → digitChar n ≠ '0') := by
  interval_cases n <;> refine ⟨rfl, rfl, ?_⟩ <;> decide

theorem parseNatDigits_append (ds : List Char) (x : Char) :
    parseNatDigits (ds ++ [x]) = parseNatDigits ds * 10 + (x.toNat - 48) := by
  simp [parseNatDigits, List.foldl_append]

theorem formatNatAux_spec : ∀ (fuel n : Nat) (acc : List Char), n < fuel →
    ∃ ds, formatNatAux fuel n acc = ds ++ acc ∧ (∀ c ∈ ds, isDigit c = true) ∧
      parseNatDigits ds = n ∧ (0 < n → ∃ h t, ds = h :: t ∧ h ≠ '0') ∧ (n = 0 → ds = ['0']) := by
  intro fuel
  induction fuel with
  | zero => intro n acc h; omega
  | succ f ih =>
    intro n acc h
    by_cases hn : n < 10
    · have hd := digitChar_spec n hn
      refine ⟨[digitChar n], ?_, ?_, ?_, ?_, ?_⟩
      · simp [formatNatAux, hn]
      · intro c hc; simp at hc; subst hc; exact hd.1
      · simp [parseNatDigits, hd.2.1]
      · intro hp; exact ⟨_, _, rfl, hd.2.2 hp⟩
      · intro h0; subst h0; rfl
    · obtain ⟨ds, h1, h2, h3, h4, _⟩ := ih (n / 10) (digitChar (n % 10) :: acc) (by omega)
      have hd := digitChar_spec (n % 10) (by omega)
      refine ⟨ds ++ [digitChar (n % 10)], ?_, ?_, ?_, ?_, ?_⟩
      · simp [formatNatAux, hn, h1]
      · intro c hc
        rcases List.mem_append.mp hc with hc | hc
        · exact h2 c hc
        · simp at hc; subst hc; exact hd.1
      · rw [parseNatDigits_append, h3, hd.2.1]; omega
      · intro _
        obtain ⟨a, t, hds, ha⟩ := h4 (by omega)
        exact ⟨a, t ++ [digitChar (n % 10)], by simp [hds], ha⟩
      · intro h0; omega

theorem formatNat_spec (n : Nat) :
    (∀ c ∈ formatNat n, isDigit c = true) ∧ parseNatDigits (formatNat n) = n ∧
      (0 < n → ∃ h t, formatNat n = h :: t ∧ h ≠ '0') ∧ (n = 0 → formatNat n = ['0']) := by
  obtain ⟨ds, h1, h2, h3, h4, h5⟩ := formatNatAux_spec (n + 1) n [] (by omega)
  have : formatNat n = ds := by simp [formatNat, h1]
  rw [this]
  exact ⟨h2, h3, h4, h5⟩

theorem spanDigits_append (ds : List Char) (c : Char) (rest : List Char)
    (hds : ∀ x ∈ ds, isDigit x = true) (hc : isDigit c = false) :
    spanDigits (ds ++ c :: rest) = (ds, c :: rest) := by
  induction ds with
  | nil => simp [spanDigits, hc]
  | cons x xs ih =>
    have hx : isDigit x = true := hds x (by simp)
    have := ih (fun y hy => hds y (by simp [hy]))
    simp only [List.cons_append, spanDigits, hx, if_true]
    change (x :: (spanDigits (xs ++ c :: rest)).1, (spanDigits (xs ++ c :: rest)).2) = _
    rw [this]

theorem scanIntPart_formatNat (n : Nat) (c : Char) (rest : List Char) (hc : isDigit c = false) :
    scanIntPart (formatNat n ++ c :: rest) = some (formatNat n, c :: rest) := by
  obtain ⟨h1, _, h3, h4⟩ := formatNat_spec n
  by_cases hn : n = 0
  · rw [h4 hn]; rfl
  · obtain ⟨a, t, hat, ha⟩ := h3 (by omega)
    rw [hat] at h1 ⊢
    have hda : isDigit a = true := h1 a (by simp)
    simp only [List.cons_append, scanIntPart, ha, if_false, hda, if_true,
      spanDigits_append t c rest (fun y hy => h1 y (by simp [hy])) hc]

theorem scanUnsigned_formatNat (neg : Bool) (n : Nat) (c : Char) (rest : List Char)
    (hc : isDigit c = false) (h1 : c ≠ '.') (h2 : c ≠ 'e') (h3 : c ≠ 'E') :
    scanUnsigned neg (formatNat n ++ c :: rest) = some (⟨neg, formatNat n, true⟩, c :: rest) := by
  simp [scanUnsigned, scanIntPart_formatNat n c rest hc, scanFrac, scanExp, h1, h2, h3]

theorem isDigit_ne (a : Char) (h : isDigit a = true) :
    a ≠ ' ' ∧ a ≠ '\t' ∧ a ≠ '\r' ∧ a ≠ '\n' ∧ a ≠ '{' ∧ a ≠ '[' ∧ a ≠ '"' ∧ a ≠ 't' ∧ a ≠ 'f'
      ∧ a ≠ 'n' ∧ a ≠ '-' := by
  refine ⟨?_, ?_, ?_, ?_, ?_, ?_, ?_, ?_, ?_, ?_, ?_⟩ <;>
    (intro e; subst e; revert h; decide)

theorem formatNat_cons (n : Nat) : ∃ a t, formatNat n = a :: t ∧ isDigit a = true := by
  obtain ⟨h1, _, h3, h4⟩ := formatNat_spec n
  by_cases hn : n = 0
  · exact ⟨'0', [], h4 hn, rfl⟩
  · obtain ⟨a, t, hat, _⟩ := h3 (by omega)
    exact ⟨a, t, hat, h1 a (by simp [hat])⟩

theorem parseValue_digits (d : Nat) (a : Char) (t : List Char) (ha : isDigit a = true) :
    parseValue (d + 1) (a :: t) = withRest JSON.num (scanUnsigned false (a :: t)) := by
  obtain ⟨n1, n2, n3, n4, n5, n6, n7, n8, n9, n10, n11⟩ := isDigit_ne a ha
  have hs : skipWS (a :: t) = a :: t := by simp [skipWS, n1, n2, n3, n4]
  rw [parseValue, hs]
  simp only [n5, n6, n7, n8, n9, n10, n11, if_false, ha, or_true, if_true, scanNumber]

theorem parseValue_encodeInt (d : Nat) (i : Int) (c : Char) (rest : List Char)
    (hc : isDigit c = false) (h1 : c ≠ '.') (h2 : c ≠ 'e') (h3 : c ≠ 'E') :
    parseValue (d + 1) (encodeInt i ++ c :: rest) = some (JSON.num (intLit i), c :: rest) := by
  unfold encodeInt intLit
  by_cases hi : i < 0
  · simp only [hi, if_true, List.cons_append]
    have : parseValue (d + 1) ('-' :: (formatNat (-i).toNat ++ c :: rest))
        = withRest JSON.num (scanUnsigned true (formatNat (-i).toNat ++ c :: rest)) := rfl
    rw [this, scanUnsigned_formatNat true _ c rest hc h1 h2 h3]
    rfl
  · simp only [hi, if_false]
    obtain ⟨a, t, hat, ha⟩ := formatNat_cons i.toNat
    have hp := parseValue_digits d a (t ++ c :: rest) ha
    have hsc := scanUnsigned_formatNat false i.toNat c rest hc h1 h2 h3
    rw [hat] at hsc ⊢
    rw [List.cons_append] at hsc ⊢
    rw [hp, hsc]
    rfl

theorem decodeInt_intLit (old i : Int) (hlo : -(2 ^ 63) ≤ i) (hhi : i < 2 ^ 63) :
    decodeInt old (JSON.num (intLit i)) = (i, none) := by
  unfold intLit
  by_cases hi : i < 0
  · have hp := (formatNat_spec (-i).toNat).2.1
    have hle : (-i).toNat ≤ 2 ^ 63 := by omega
    have hneg : -(((-i).toNat : Nat) : Int) = i := by omega
    simp only [hi, if_true, decodeInt, NumLit.toInt64, hp, hle, hneg]
  · have hp := (formatNat_spec i.toNat).2.1
    have hlt : i.toNat < 2 ^ 63 := by omega
    have hpos : ((i.toNat : Nat) : Int) = i := by omega
    simp only [hi, if_false, if_true, decodeInt, NumLit.toInt64, hp, hlt, hpos,
      Bool.false_eq_true]

theorem parseValue_encodeMap (d : Nat) (h : Option HeaderMap) (rest : List Char)
    (hv : validStrings (sortByKey (h.getD [])) = true) :
    parseValue (d + 3) (encodeMap h ++ rest) = some (headersJSON h, rest) := by
  cases h with
  | none => rfl
  | some m =>
    have := parseValue_encodeMembers d (sortByKey m) rest hv
    simpa [encodeMap, headersJSON] using this

theorem marshalText_eq (e : CachedResponse) :
    marshalText e = '{' :: (quoteRunes "Headers".toList ++ ':' :: (encodeMap e.Headers ++ ',' ::
      (quoteRunes "Body".toList ++ ':' :: (encodeBytes e.Body ++ ',' ::
        (quoteRunes "StatusCode".toList ++ ':' :: (encodeInt e.StatusCode ++ '}' :: [])))))) := by
  have a1 : "\x7b\"Headers\":".toList = '{' :: (quoteRunes "Headers".toList ++ [':']) := rfl
  have a2 : ",\"Body\":".toList = ',' :: (quoteRunes "Body".toList ++ [':']) := rfl
  have a3 : ",\"StatusCode\":".toList = ',' :: (quoteRunes "StatusCode".toList ++ [':']) := rfl
  rw [marshalText, a1, a2, a3]
  simp only [List.append_assoc, List.cons_append, List.nil_append, List.singleton_append]

theorem parseMembers_struct (d n : Nat) (e : CachedResponse)
    (hv : validStrings (sortByKey (e.Headers.getD [])) = true) :
    parseMembers (parseValue (d + 3)) (n + 3)
      (quoteRunes "Headers".toList ++ ':' :: (encodeMap e.Headers ++ ',' ::
        (quoteRunes "Body".toList ++ ':' :: (encodeBytes e.Body ++ ',' ::
          (quoteRunes "StatusCode".toList ++ ':' :: (encodeInt e.StatusCode ++ '}' :: []))))))
      = some ([("Headers".toList, headersJSON e.Headers), ("Body".toList, bytesJSON e.Body),
          ("StatusCode".toList, JSON.num (intLit e.StatusCode))], []) := by
  rw [parseMembers_comma _ _ _ _ _ _ (parseValue_encodeMap d e.Headers _ hv)]
  rw [parseMembers_comma _ _ _ _ _ _ (parseValue_encodeBytes (d + 2) e.Body _)]
  rw [parseMembers_close _ _ _ _ _ _
    (parseValue_encodeInt (d + 2) e.StatusCode '}' [] (by decide) (by decide) (by decide)
      (by decide))]
  rfl

theorem parseValue_marshalText (d : Nat) (e : CachedResponse)
    (hv : validStrings (sortByKey (e.Headers.getD [])) = true) :
    parseValue (d + 4) (marshalText e) = some (structJSON e, []) := by
  rw [marshalText_eq]
  have hk : ∃ t, quoteRunes "Headers".toList ++ ':' :: (encodeMap e.Headers ++ ',' ::
      (quoteRunes "Body".toList ++ ':' :: (encodeBytes e.Body ++ ',' ::
        (quoteRunes "StatusCode".toList ++ ':' :: (encodeInt e.StatusCode ++ '}' :: [])))))
      = '"' :: t := ⟨_, rfl⟩
  obtain ⟨t, ht⟩ := hk
  have hlen : ∃ n, ('"' :: t).length = n + 3 := by
    refine ⟨('"' :: t).length - 3, ?_⟩
    have : 9 ≤ ('"' :: t).length := by
      rw [← ht]
      simp only [quoteRunes, List.length_append, List.length_cons, String.toList]
      omega
    omega
  obtain ⟨n, hn⟩ := hlen
  have key := parseMembers_struct d n e hv
  rw [ht] at key ⊢
  rw [parseValue_object, hn, key]
  rfl

theorem marshalText_length (e : CachedResponse) : 3 ≤ (marshalText e).length := by
  rw [marshalText_eq]
  simp only [quoteRunes, List.length_append, List.length_cons]
  omega

theorem parseDocument_marshalText (e : CachedResponse)
    (hv : validStrings (sortByKey (e.Headers.getD [])) = true) :
    parseDocument (marshalText e) = some (structJSON e) := by
  have hl := marshalText_length e
  obtain ⟨d, hd⟩ : ∃ d, (marshalText e).length + 1 = d + 4 := ⟨(marshalText e).length - 3, by omega⟩
  rw [parseDocument, hd, parseValue_marshalText d e hv]
  rfl

theorem decodeHeaders_headersJSON (h : Option HeaderMap) (hok : HeadersOK h) :
    decodeHeaders none (headersJSON h) = (h, none) := by
  cases h with
  | none => rfl
  | some m =>
    have hs : sortByKey m = m := sortByKey_of_ascending m hok.1
    rw [headersJSON, hs]
    exact decodeHeaders_mapJSON none m hok.1 hok.2 rfl

theorem validStrings_sorted (h : Option HeaderMap) (hok : HeadersOK h) :
    validStrings (sortByKey (h.getD [])) = true := by
  cases h with
  | none => rfl
  | some m =>
    have hs : sortByKey m = m := sortByKey_of_ascending m hok.1
    simpa [hs] using hok.2

theorem decodeStruct_structJSON (e : CachedResponse) (h : e.WellFormed) :
    decodeStruct CachedResponse.zero (structJSON e) = (e, none) := by
  have f1 : fieldNamed "Headers".toList = some Field.Headers := rfl
  have f2 : fieldNamed "Body".toList = some Field.Body := rfl
  have f3 : fieldNamed "StatusCode".toList = some Field.StatusCode := rfl
  simp only [structJSON, decodeStruct, List.foldl, decodeMember, f1, f2, f3, CachedResponse.zero,
    decodeHeaders_headersJSON e.Headers h.1, decodeBytes_encoded,
    decodeInt_intLit _ e.StatusCode h.2.1 h.2.2, firstError]

/-- The codec law on the model of `encoding/json`: decoding the encoding of a
well-formed envelope into a zero `CachedResponse` gives the envelope, without error. -/
theorem Unmarshal_Marshal (e : CachedResponse) (h : e.WellFormed) :
    Unmarshal (Marshal e) CachedResponse.zero = (e, none) := by
  rw [Unmarshal, Marshal, utf8DecodeAll_utf8EncodeAll,
    parseDocument_marshalText e (validStrings_sorted e.Headers h.1)]
  exact decodeStruct_structJSON e h

/-! ## `injectHeaders` -/

theorem injectValues_apply (canon : GoString → GoString) (key : GoString) (vs : List GoString) :
    ∀ (dst : GoString → List GoString) (name : GoString),
      injectValues canon key vs dst name
        = if name = canon key then dst name ++ vs else dst name := by
  induction vs with
  | nil => intro dst name; simp [injectValues]
  | cons v vs ih =>
    intro dst name
    rw [injectValues, ih]
    by_cases h : name = canon key <;> simp [headerAdd, h]

theorem injectEntries_apply (canon : GoString → GoString) (l : HeaderMap) :
    ∀ (dst : GoString → List GoString) (name : GoString),
      injectEntries canon l dst name = dst name ++ collectValues canon name l := by
  induction l with
  | nil => intro dst name; simp [injectEntries, collectValues]
  | cons e l ih =>
    intro dst name
    obtain ⟨k, v⟩ := e
    rw [injectEntries, ih, injectValues_apply]
    by_cases h : name = canon k <;> simp [collectValues, h]

theorem keys_nodup_of_ascending (m : HeaderMap) (h : KeysAscending m) :
    (m.map Prod.fst).Nodup := by
  rw [List.Nodup, List.pairwise_map]
  refine List.Pairwise.imp ?_ h
  intro a b hab e
  rw [e, GoString.lt_irrefl] at hab
  exact Bool.false_ne_true hab

theorem mapValues_of_not_mem (l : HeaderMap) (name : GoString) (h : name ∉ l.map Prod.fst) :
    mapValues l name = [] := by
  induction l with
  | nil => rfl
  | cons e l ih =>
    obtain ⟨k, v⟩ := e
    simp only [List.map_cons, List.mem_cons, not_or] at h
    have hk : ¬ k = name := fun e => h.1 e.symm
    simp only [mapValues, hk, if_false]
    exact ih h.2

theorem mapValues_of_mem (l : HeaderMap) (name : GoString) (v : Option (List GoString))
    (hn : (l.map Prod.fst).Nodup) (h : (name, v) ∈ l) : mapValues l name = v.getD [] := by
  induction l with
  | nil => simp at h
  | cons e l ih =>
    obtain ⟨k, w⟩ := e
    simp only [List.map_cons, List.nodup_cons] at hn
    rcases List.mem_cons.mp h with h | h
    · injection h with h1 h2
      subst h1; subst h2
      simp [mapValues]
    · have hk : ¬ k = name := by
        intro e; subst e
        exact hn.1 (List.mem_map_of_mem Prod.fst h)
      simp only [mapValues, hk, if_false]
      exact ih hn.2 h

theorem collectValues_eq_mapValues (canon : GoString → GoString) (l : HeaderMap)
    (name : GoString) (hc : ∀ kv ∈ l, canon kv.1 = kv.1) (hn : (l.map Prod.fst).Nodup) :
    collectValues canon name l = mapValues l name := by
  induction l with
  | nil => rfl
  | cons e l ih =>
    obtain ⟨k, v⟩ := e
    simp only [List.map_cons, List.nodup_cons] at hn
    have hk : canon k = k := hc (k, v) (by simp)
    have ih' := ih (fun kv hkv => hc kv (by simp [hkv])) hn.2
    by_cases h : name = k
    · subst h
      have : mapValues l name = [] := mapValues_of_not_mem l name hn.1
      simp [collectValues, mapValues, hk, ih', this]
    · have h' : ¬ k = name := fun e => h e.symm
      simp [collectValues, mapValues, hk, h, h', ih']

theorem mapValues_perm (l m : HeaderMap) (name : GoString) (hp : l.Perm m)
    (hn : (m.map Prod.fst).Nodup) : mapValues l name = mapValues m name := by
  have hl : (l.map Prod.fst).Nodup := (hp.map Prod.fst).nodup_iff.mpr hn
  by_cases h : name ∈ m.map Prod.fst
  · obtain ⟨⟨k, v⟩, hkv, hk⟩ := List.mem_map.mp h
    simp only at hk
    subst hk
    rw [mapValues_of_mem m k v hn hkv, mapValues_of_mem l k v hl (hp.mem_iff.mpr hkv)]
  · have h2 : name ∉ l.map Prod.fst := fun hx => h ((hp.map Prod.fst).mem_iff.mp hx)
    rw [mapValues_of_not_mem m name h, mapValues_of_not_mem l name h2]

/-- What `injectHeaders` leaves in an empty header map: for canonical, distinct
header names the values of the source, whatever the order of iteration. -/
theorem injectHeaders_empty (env : Env) (dst : GoString → List GoString) (h : Option HeaderMap)
    (hok : HeadersOK h) (hcanon : CanonicalKeys env.canonicalKey h)
    (hperm : ∀ m, (env.rangeOrder m).Perm m) (hempty : ∀ name, dst name = []) (name : GoString) :
    injectHeaders env dst h name = headerValues h name := by
  cases h with
  | none => simp [injectHeaders, headerValues, hempty]
  | some m =>
    have hn := keys_nodup_of_ascending m hok.1
    have hp := hperm m
    have hn' : ((env.rangeOrder m).map Prod.fst).Nodup := (hp.map Prod.fst).nodup_iff.mpr hn
    have hc' : ∀ kv ∈ env.rangeOrder m, env.canonicalKey kv.1 = kv.1 :=
      fun kv hkv => hcanon kv (hp.mem_iff.mp hkv)
    simp only [injectHeaders, headerValues]
    rw [injectEntries_apply, hempty, List.nil_append,
      collectValues_eq_mapValues _ _ _ hc' hn', mapValues_perm _ _ _ hp hn]

/-! ## Key derivation -/

theorem stringsReplace_no_old (s : GoString) (old new : Byte) (h : new ≠ old) :
    old ∉ stringsReplace s old new := by
  intro hm
  obtain ⟨c, _, hc⟩ := List.mem_map.mp hm
  by_cases e : c = old
  · rw [if_pos e] at hc; exact h hc
  · rw [if_neg e] at hc; exact e hc

theorem stringsTrimPrefix_subset (s : GoString) (p c : Byte) (h : c ∈ stringsTrimPrefix s p) :
    c ∈ s := by
  cases s with
  | nil => simp [stringsTrimPrefix] at h
  | cons x xs =>
    by_cases e : x = p
    · simp only [stringsTrimPrefix, e, if_true] at h
      exact List.mem_cons_of_mem _ h
    · simpa only [stringsTrimPrefix, e, if_false] using h

theorem key_of_slash_cons (p : GoString) :
    stringsTrimPrefix (stringsReplace (ascii '/' :: p) (ascii '/') (ascii '.')) (ascii '.')
      = stringsReplace p (ascii '/') (ascii '.') := by
  simp [stringsReplace, stringsTrimPrefix]

theorem trim_eq_self_iff (p : GoString) :
    stringsReplace p (ascii '/') (ascii '.')
        = stringsTrimPrefix (stringsReplace p (ascii '/') (ascii '.')) (ascii '.')
      ↔ p.head? ≠ some (ascii '/') ∧ p.head? ≠ some (ascii '.') := by
  cases p with
  | nil => simp [stringsReplace, stringsTrimPrefix]
  | cons c cs =>
    by_cases h1 : c = ascii '/'
    · subst h1
      simp only [stringsReplace, stringsTrimPrefix, List.map_cons, if_true, List.head?_cons,
        ne_eq, not_true_eq_false, false_and, iff_false]
      intro h
      have := congrArg List.length h
      simp at this
    · by_cases h2 : c = ascii '.'
      · subst h2
        simp only [stringsReplace, stringsTrimPrefix, List.map_cons, h1, if_false, if_true,
          List.head?_cons, ne_eq, not_true_eq_false, and_false, iff_false]
        intro h
        have := congrArg List.length h
        simp at this
      · simp [stringsReplace, stringsTrimPrefix, h1, h2]

/-- C9, as stated, fails: the key of `"/" ++ "/nodes"` is `".nodes"` while the
key of `"/nodes"` is `"nodes"`, since only one leading delimiter is trimmed. -/
theorem C9_leading_delimiter_counterexample :
    cacheRequestKey (ascii '/' :: bytesOf "/nodes") = bytesOf ".nodes" ∧
      cacheRequestKey (bytesOf "/nodes") = bytesOf "nodes" ∧
      cacheRequestKey (ascii '/' :: bytesOf "/nodes") ≠ cacheRequestKey (bytesOf "/nodes") := by
  decide

/-- C9, amended: the key derived from `"/" ++ p` equals the key derived from `p`
exactly when `p` begins neither with `/` nor with `.`; this holds for the key of
`cacheRequest` and for the key of `invalidateCache`. -/
theorem C9_leading_delimiter_stripped (p : GoString) :
    (cacheRequestKey (ascii '/' :: p) = cacheRequestKey p
        ↔ p.head? ≠ some (ascii '/') ∧ p.head? ≠ some (ascii '.')) ∧
      (invalidateCacheKey (ascii '/' :: p) = invalidateCacheKey p
        ↔ p.head? ≠ some (ascii '/') ∧ p.head? ≠ some (ascii '.')) := by
  unfold cacheRequestKey invalidateCacheKey
  rw [key_of_slash_cons]
  exact ⟨trim_eq_self_iff p, trim_eq_self_iff p⟩

/-- C10: for every request path `p` the cache key computed by `cacheRequest` and
the cache key computed by `invalidateCache` are the same string, and that string
contains no `/`. -/
theorem C10_keys_without_separator (p : GoString) :
    cacheRequestKey p = invalidateCacheKey p ∧ ascii '/' ∉ cacheRequestKey p := by
  refine ⟨rfl, ?_⟩
  intro h
  exact stringsReplace_no_old p (ascii '/') (ascii '.') (by decide)
    (stringsTrimPrefix_subset _ _ _ h)

/-! ## The codec law -/

/-- C8: for every well-formed envelope `e` (a header map from names to ordered
value lists, body bytes, a 64-bit status), `json.Unmarshal` of the bytes of
`json.Marshal(e)` into a zero `CachedResponse` succeeds and yields `e`: the same
status, the same body bytes, the same header map with every value list in order. -/
theorem C8_codec_round_trip (e : CachedResponse) (h : e.WellFormed) :
    (Unmarshal (Marshal e) CachedResponse.zero).2 = none ∧
      (Unmarshal (Marshal e) CachedResponse.zero).1 = e ∧
      ∀ name, headerValues (Unmarshal (Marshal e) CachedResponse.zero).1.Headers name
        = headerValues e.Headers name := by
  rw [Unmarshal_Marshal e h]
  exact ⟨rfl, rfl, fun _ => rfl⟩

/-- C8 at an envelope with a two-valued header, an escaped character and a body. -/
theorem C8_codec_round_trip_witness :
    sampleEnvelope.WellFormed ∧
      (Unmarshal (Marshal sampleEnvelope) CachedResponse.zero).2 = none ∧
      (Unmarshal (Marshal sampleEnvelope) CachedResponse.zero).1 = sampleEnvelope ∧
      ∀ name, headerValues (Unmarshal (Marshal sampleEnvelope) CachedResponse.zero).1.Headers name
        = headerValues sampleEnvelope.Headers name :=
  ⟨by decide, C8_codec_round_trip sampleEnvelope (by decide)⟩

/-! ## `cacheRequest` -/

theorem Get_miss_reachable (mc : Memcache) (key : GoString) (it : Option (List Byte))
    (h : mc.Get key = (it, some CacheError.ErrCacheMiss)) :
    mc.reachable = true ∧ mc.store key = none := by
  unfold Memcache.Get at h
  cases hr : mc.reachable with
  | false => simp [hr] at h
  | true =>
    simp only [hr, if_true] at h
    cases hs : mc.store key with
    | none => exact ⟨rfl, rfl⟩
    | some w => simp [hs] at h

/-- The call `cacheRequest` on a hit: the cache lookup, the hit counter, and the
stored value rendered. -/
theorem cacheRequest_hit (env : Env) (r : Request) (s : World) (u0 u : URL)
    (body : List Byte) (v : List Byte)
    (hurl : r.URL = some u0)
    (hbody : env.dumpBody r = Except.ok body)
    (hparse : env.urlParse (upstreamURL env u0.Path u0.RawQuery) = Except.ok u)
    (hget : s.mc.Get (cacheRequestKey u0.Path) = (some v, none)) :
    cacheRequest env r s =
      cacheRequestRender env (Unmarshal v CachedResponse.zero).1
        { s with metrics := (s.metrics ++
            [MetricEvent.timer (cacheRequestKey u0.Path ++ ascii '.' :: bytesOf "cache.query")]) ++
            [MetricEvent.counterInc
              (cacheRequestKey u0.Path ++ ascii '.' :: bytesOf "cache.hit") 1] } := by
  unfold cacheRequest
  simp only [hurl, hbody, hparse, hget]

/-- The call `cacheRequest` on a miss: the fetch, the `Set`, the miss counter,
and the fetched response rendered. -/
theorem cacheRequest_miss (env : Env) (r : Request) (s : World) (u0 u : URL)
    (body : List Byte) (it : Option (List Byte))
    (hurl : r.URL = some u0)
    (hbody : env.dumpBody r = Except.ok body)
    (hparse : env.urlParse (upstreamURL env u0.Path u0.RawQuery) = Except.ok u)
    (hget : s.mc.Get (cacheRequestKey u0.Path) = (it, some CacheError.ErrCacheMiss)) :
    cacheRequest env r s =
      cacheRequestRender env
        (cacheRequestFetch env { r with URL := some u } u CachedResponse.zero
          { s with metrics := s.metrics ++
            [MetricEvent.timer (cacheRequestKey u0.Path ++ ascii '.' :: bytesOf "cache.query")] }).2
        (let f := cacheRequestFetch env { r with URL := some u } u CachedResponse.zero
          { s with metrics := s.metrics ++
            [MetricEvent.timer (cacheRequestKey u0.Path ++ ascii '.' :: bytesOf "cache.query")] }
         { f.1 with
            mc := (f.1.mc.Set (cacheRequestKey u0.Path) (Marshal f.2)).1
            cacheSets := f.1.cacheSets ++ [(cacheRequestKey u0.Path, Marshal f.2)]
            metrics := (f.1.metrics ++
              [MetricEvent.timer (cacheRequestKey u0.Path ++ ascii '.' :: bytesOf "time")]) ++
              [MetricEvent.counterInc
                (cacheRequestKey u0.Path ++ ascii '.' :: bytesOf "cache.miss") 1] }) := by
  unfold cacheRequest
  simp only [hurl, hbody, hparse, hget]

/-- Rendering a response whose status the writer accepts. -/
theorem cacheRequestRender_ok (env : Env) (response : CachedResponse) (s : World)
    (h : 100 ≤ response.StatusCode ∧ response.StatusCode ≤ 999) :
    cacheRequestRender env response s = Outcome.returned
      { s with w :=
        { header := injectHeaders env s.w.header response.Headers
          calls := s.w.calls ++
            [WriterCall.WriteHeader response.StatusCode, WriterCall.Write response.Body] } } := by
  simp [cacheRequestRender, ResponseWriter.WriteHeader, ResponseWriter.Write, h]

/-- The cache, the values set and the upstream calls are those before rendering. -/
theorem cacheRequestRender_world (env : Env) (response : CachedResponse) (s : World) :
    (cacheRequestRender env response s).world.mc = s.mc ∧
      (cacheRequestRender env response s).world.cacheSets = s.cacheSets ∧
      (cacheRequestRender env response s).world.upstreamCalls = s.upstreamCalls := by
  unfold cacheRequestRender
  cases ResponseWriter.WriteHeader
      { s.w with header := injectHeaders env s.w.header response.Headers }
      response.StatusCode with
  | none => exact ⟨rfl, rfl, rfl⟩
  | some w => exact ⟨rfl, rfl, rfl⟩

/-- C1, as stated, fails in two ways. The zero envelope is well-formed (it is
what the handler itself stores after an upstream failure), and on a hit for it
the response writer refuses the status `0`: the handler panics and nothing is
written. An envelope whose header name is `content-type` is well-formed, and on
a hit for it `http.Header.Add` puts the value under `Content-Type`: the response
has no values for the name `content-type`, which has one in the envelope. -/
theorem C1_cache_hit_counterexample :
    (CachedResponse.zero.WellFormed ∧
      (cacheWith (bytesOf "nodes.foo") (Marshal CachedResponse.zero)).Get
          (cacheRequestKey (bytesOf "/nodes/foo")) = (some (Marshal CachedResponse.zero), none) ∧
      (cacheRequest (sampleEnv true refused) getNodesFoo
        (freshWorld (cacheWith (bytesOf "nodes.foo") (Marshal CachedResponse.zero)))).isPanic
          = true ∧
      (cacheRequest (sampleEnv true refused) getNodesFoo
        (freshWorld (cacheWith (bytesOf "nodes.foo") (Marshal CachedResponse.zero)))).world.w.calls
          = []) ∧
    (lowerCaseEnvelope.WellFormed ∧
      (cacheWith (bytesOf "nodes.foo") (Marshal lowerCaseEnvelope)).Get
          (cacheRequestKey (bytesOf "/nodes/foo")) = (some (Marshal lowerCaseEnvelope), none) ∧
      headerValues lowerCaseEnvelope.Headers (bytesOf "content-type") = [bytesOf "text/plain"] ∧
      (cacheRequest (sampleEnv true refused) getNodesFoo
        (freshWorld (cacheWith (bytesOf "nodes.foo") (Marshal lowerCaseEnvelope)))).world.w.header
          (bytesOf "content-type") = [] ∧
      (cacheRequest (sampleEnv true refused) getNodesFoo
        (freshWorld (cacheWith (bytesOf "nodes.foo") (Marshal lowerCaseEnvelope)))).world.w.header
          (bytesOf "Content-Type") = [bytesOf "text/plain"]) := by
  decide

/-- C1, amended: for a request whose body is readable and whose rewritten URL
parses, if the cache lookup for the key of the request path returns, without
error, an item whose value is the encoding of a well-formed envelope `e` whose
header names are in canonical MIME form and whose status is between 100 and 999,
then the handler returns having made no upstream round trip and no cache `Set`,
and has written to the initially header-empty client response exactly the status
of `e`, the body of `e`, and for every header name the values of `e` in their
order, whatever the order in which the header map is iterated. -/
theorem C1_cache_hit_short_circuit (env : Env) (r : Request) (s : World) (u0 u : URL)
    (body : List Byte) (e : CachedResponse)
    (hurl : r.URL = some u0)
    (hbody : env.dumpBody r = Except.ok body)
    (hparse : env.urlParse (upstreamURL env u0.Path u0.RawQuery) = Except.ok u)
    (hget : s.mc.Get (cacheRequestKey u0.Path) = (some (Marshal e), none))
    (hwf : e.WellFormed)
    (hcanon : CanonicalKeys env.canonicalKey e.Headers)
    (hstatus : 100 ≤ e.StatusCode ∧ e.StatusCode ≤ 999)
    (hperm : ∀ m, (env.rangeOrder m).Perm m)
    (hempty : ∀ name, s.w.header name = []) :
    ∃ s', cacheRequest env r s = Outcome.returned s' ∧
      s'.upstreamCalls = s.upstreamCalls ∧
      s'.cacheSets = s.cacheSets ∧
      s'.mc = s.mc ∧
      s'.w.calls = s.w.calls ++ [WriterCall.WriteHeader e.StatusCode, WriterCall.Write e.Body] ∧
      ∀ name, s'.w.header name = headerValues e.Headers name := by
  rw [cacheRequest_hit env r s u0 u body (Marshal e) hurl hbody hparse hget,
    Unmarshal_Marshal e hwf, cacheRequestRender_ok env e _ hstatus]
  refine ⟨_, rfl, rfl, rfl, rfl, rfl, ?_⟩
  intro name
  exact injectHeaders_empty env s.w.header e.Headers hwf.1 hcanon hperm hempty name

/-- C1, amended, at `GET /nodes/foo` with the sample envelope stored under `nodes.foo`. -/
theorem C1_cache_hit_short_circuit_witness :
    sampleEnvelope.WellFormed ∧
      (100 ≤ sampleEnvelope.StatusCode ∧ sampleEnvelope.StatusCode ≤ 999) ∧
      (cacheWith (bytesOf "nodes.foo") (Marshal sampleEnvelope)).Get
          (cacheRequestKey (bytesOf "/nodes/foo")) = (some (Marshal sampleEnvelope), none) ∧
      ∃ s', cacheRequest (sampleEnv true refused) getNodesFoo
          (freshWorld (cacheWith (bytesOf "nodes.foo") (Marshal sampleEnvelope)))
          = Outcome.returned s' ∧
        s'.upstreamCalls = [] ∧
        s'.cacheSets = [] ∧
        s'.mc = cacheWith (bytesOf "nodes.foo") (Marshal sampleEnvelope) ∧
        s'.w.calls = [] ++ [WriterCall.WriteHeader 200, WriterCall.Write (some [123, 125])] ∧
        ∀ name, s'.w.header name = headerValues sampleEnvelope.Headers name :=
  ⟨by decide, by decide, by decide,
    C1_cache_hit_short_circuit (sampleEnv true refused) getNodesFoo
      (freshWorld (cacheWith (bytesOf "nodes.foo") (Marshal sampleEnvelope)))
      ⟨bytesOf "/nodes/foo", [], bytesOf "/nodes/foo"⟩
      ⟨bytesOf "/nodes/foo", [], bytesOf "http://127.0.0.1:8000/nodes/foo?"⟩ [] sampleEnvelope
      rfl rfl rfl (by decide) (by decide)
      (by intro kv hkv; revert kv; decide)
      (by decide) (fun m => List.Perm.refl m) (fun _ => rfl)⟩

/-- C2, as stated, fails in two ways. An upstream header value `caf` followed by
the byte `0xE9` is not valid UTF-8: `json.Marshal` writes the byte as `\ufffd`, so
the value set under `nodes.foo` decodes to an envelope whose header value ends in
the bytes of U+FFFD, not to the envelope of the upstream's headers. And when the
encoded envelope is longer than the cache's value bound the `Set` is refused: the
handler has called `Set`, but a following lookup still reports a miss. -/
theorem C2_cache_miss_counterexample :
    ((cacheRequest (sampleEnv true upstreamLatin1) getNodesFoo (freshWorld emptyCache)).world.mc.Get
          (cacheRequestKey (bytesOf "/nodes/foo"))
        = (some (Marshal ⟨some [(bytesOf "X-Name", some [[99, 97, 102, 233]])],
            some [104, 105], 200⟩), none) ∧
      Unmarshal (Marshal ⟨some [(bytesOf "X-Name", some [[99, 97, 102, 233]])],
          some [104, 105], 200⟩) CachedResponse.zero
        = (⟨some [(bytesOf "X-Name", some [[99, 97, 102, 239, 191, 189]])],
            some [104, 105], 200⟩, none) ∧
      (⟨some [(bytesOf "X-Name", some [[99, 97, 102, 239, 191, 189]])], some [104, 105], 200⟩
          : CachedResponse)
        ≠ ⟨some [(bytesOf "X-Name", some [[99, 97, 102, 233]])], some [104, 105], 200⟩) ∧
    (smallCache.Get (cacheRequestKey (bytesOf "/nodes/foo"))
        = (none, some CacheError.ErrCacheMiss) ∧
      (cacheRequest (sampleEnv true upstreamOK) getNodesFoo (freshWorld smallCache)).world.cacheSets
        = [(bytesOf "nodes.foo", Marshal ⟨some [(bytesOf "Content-Type",
            some [bytesOf "application/json"])], some [104, 105], 200⟩)] ∧
      (cacheRequest (sampleEnv true upstreamOK) getNodesFoo (freshWorld smallCache)).world.mc.Get
          (cacheRequestKey (bytesOf "/nodes/foo"))
        = (none, some CacheError.ErrCacheMiss)) := by
  decide

/-- C2, amended: for a request to path `P` whose body is readable and whose
rewritten URL parses, if the cache lookup reports `ErrCacheMiss`, the upstream
round trip succeeds and the body read succeeds, the response then holding status
`s`, headers `h` (a Go map whose names and values are valid UTF-8) and body `b`,
and the encoded envelope is within the value bound of the cache, then the handler
has called the upstream once and has set under the key of `P` a value that
decodes, without error, to the envelope `{Headers: h, Body: b, StatusCode: s}`,
and a following lookup of that key returns this value. When `s` is between 100
and 999 the handler returns, having sent the client the status `s` and the body
`b`. The response is read after `checkHTTPResponse` was handed it. -/
theorem C2_cache_miss_population (env : Env) (r : Request) (s : World) (u0 u : URL)
    (body : List Byte) (it : Option (List Byte)) (resp0 : Response) (b : List Byte)
    (hurl : r.URL = some u0)
    (hbody : env.dumpBody r = Except.ok body)
    (hparse : env.urlParse (upstreamURL env u0.Path u0.RawQuery) = Except.ok u)
    (hget : s.mc.Get (cacheRequestKey u0.Path) = (it, some CacheError.ErrCacheMiss))
    (hrt : env.RoundTrip { r with URL := some u } = Except.ok resp0)
    (hread : (env.checkHTTPResponse resp0 [StatusOK, StatusCreated]).1.ReadAll = (b, none))
    (hmap : HeadersOK (env.checkHTTPResponse resp0 [StatusOK, StatusCreated]).1.Header)
    (hint : -(2 ^ 63) ≤ (env.checkHTTPResponse resp0 [StatusOK, StatusCreated]).1.StatusCode ∧
      (env.checkHTTPResponse resp0 [StatusOK, StatusCreated]).1.StatusCode < 2 ^ 63)
    (hfit : (Marshal ⟨(env.checkHTTPResponse resp0 [StatusOK, StatusCreated]).1.Header, some b,
      (env.checkHTTPResponse resp0 [StatusOK, StatusCreated]).1.StatusCode⟩).length ≤ s.mc.limit) :
    ∃ v, (cacheRequest env r s).world.cacheSets = s.cacheSets ++ [(cacheRequestKey u0.Path, v)] ∧
      Unmarshal v CachedResponse.zero
        = (⟨(env.checkHTTPResponse resp0 [StatusOK, StatusCreated]).1.Header, some b,
            (env.checkHTTPResponse resp0 [StatusOK, StatusCreated]).1.StatusCode⟩, none) ∧
      (cacheRequest env r s).world.mc.Get (cacheRequestKey u0.Path) = (some v, none) ∧
      (cacheRequest env r s).world.upstreamCalls = s.upstreamCalls ++ [{ r with URL := some u }] ∧
      (100 ≤ (env.checkHTTPResponse resp0 [StatusOK, StatusCreated]).1.StatusCode ∧
          (env.checkHTTPResponse resp0 [StatusOK, StatusCreated]).1.StatusCode ≤ 999 →
        ∃ s', cacheRequest env r s = Outcome.returned s' ∧
          s'.w.calls = s.w.calls ++
            [WriterCall.WriteHeader (env.checkHTTPResponse resp0 [StatusOK, StatusCreated]).1.StatusCode,
              WriterCall.Write (some b)]) := by
  have hreach := (Get_miss_reachable s.mc _ it hget).1
  have hf : cacheRequestFetch env { r with URL := some u } u CachedResponse.zero
      { s with metrics := s.metrics ++
        [MetricEvent.timer (cacheRequestKey u0.Path ++ ascii '.' :: bytesOf "cache.query")] }
      = ({ s with
            metrics := s.metrics ++
              [MetricEvent.timer (cacheRequestKey u0.Path ++ ascii '.' :: bytesOf "cache.query")]
            upstreamCalls := s.upstreamCalls ++ [{ r with URL := some u }] },
          ⟨(env.checkHTTPResponse resp0 [StatusOK, StatusCreated]).1.Header, some b,
            (env.checkHTTPResponse resp0 [StatusOK, StatusCreated]).1.StatusCode⟩) := by
    unfold cacheRequestFetch
    simp only [hrt, hread]
  rw [cacheRequest_miss env r s u0 u body it hurl hbody hparse hget, hf]
  refine ⟨Marshal ⟨(env.checkHTTPResponse resp0 [StatusOK, StatusCreated]).1.Header, some b,
    (env.checkHTTPResponse resp0 [StatusOK, StatusCreated]).1.StatusCode⟩, ?_, ?_, ?_, ?_, ?_⟩
  · rw [(cacheRequestRender_world _ _ _).2.1]
  · exact Unmarshal_Marshal _ ⟨hmap, hint.1, hint.2⟩
  · rw [(cacheRequestRender_world _ _ _).1]
    simp [Memcache.Set, Memcache.Get, hreach, hfit]
  · rw [(cacheRequestRender_world _ _ _).2.2]
  · intro hst
    rw [cacheRequestRender_ok _ _ _ hst]
    exact ⟨_, rfl, rfl⟩

/-- C2, amended, at `GET /nodes/foo` with an empty cache and an upstream answering `200`. -/
theorem C2_cache_miss_population_witness :
    emptyCache.Get (cacheRequestKey (bytesOf "/nodes/foo"))
        = (none, some CacheError.ErrCacheMiss) ∧
      ∃ v, (cacheRequest (sampleEnv true upstreamOK) getNodesFoo (freshWorld emptyCache)).world.cacheSets
          = [] ++ [(cacheRequestKey (bytesOf "/nodes/foo"), v)] ∧
        Unmarshal v CachedResponse.zero
          = (⟨some [(bytesOf "Content-Type", some [bytesOf "application/json"])],
              some [104, 105], 200⟩, none) ∧
        (cacheRequest (sampleEnv true upstreamOK) getNodesFoo (freshWorld emptyCache)).world.mc.Get
            (cacheRequestKey (bytesOf "/nodes/foo")) = (some v, none) ∧
        (cacheRequest (sampleEnv true upstreamOK) getNodesFoo
            (freshWorld emptyCache)).world.upstreamCalls
          = [] ++ [{ getNodesFoo with
              URL := some ⟨bytesOf "/nodes/foo", [],
                bytesOf "http://127.0.0.1:8000/nodes/foo?"⟩ }] ∧
        (100 ≤ (200 : Int) ∧ (200 : Int) ≤ 999 →
          ∃ s', cacheRequest (sampleEnv true upstreamOK) getNodesFoo (freshWorld emptyCache)
              = Outcome.returned s' ∧
            s'.w.calls = [] ++ [WriterCall.WriteHeader 200, WriterCall.Write (some [104, 105])]) :=
  ⟨by decide,
    C2_cache_miss_population (sampleEnv true upstreamOK) getNodesFoo (freshWorld emptyCache)
      ⟨bytesOf "/nodes/foo", [], bytesOf "/nodes/foo"⟩
      ⟨bytesOf "/nodes/foo", [], bytesOf "http://127.0.0.1:8000/nodes/foo?"⟩ [] none
      ⟨200, some [(bytesOf "Content-Type", some [bytesOf "application/json"])],
        ([104, 105], none)⟩
      [104, 105] rfl rfl rfl (by decide) rfl rfl (by decide) (by decide) (by decide)⟩

/-- C3, on the code: with an empty reachable cache and an upstream that refuses
the connection, `GET /nodes/foo` is answered with `502` by `errorHandler`, and the
handler then sets the encoding of the zero envelope under `nodes.foo`, so the key
that was absent is present afterwards. -/
theorem C3_upstream_failure_sets_cache :
    emptyCache.Get (bytesOf "nodes.foo") = (none, some CacheError.ErrCacheMiss) ∧
      (cacheRequest (sampleEnv true refused) getNodesFoo (freshWorld emptyCache)).world.w.calls.head?
        = some (WriterCall.errorHandler
            (bytesOf "Call to http://127.0.0.1:8000/nodes/foo? failed: connection refused") 502) ∧
      (cacheRequest (sampleEnv true refused) getNodesFoo (freshWorld emptyCache)).world.cacheSets
        = [(bytesOf "nodes.foo", bytesOf "\x7b\"Headers\":null,\"Body\":null,\"StatusCode\":0\x7d")] ∧
      (cacheRequest (sampleEnv true refused) getNodesFoo (freshWorld emptyCache)).world.mc.Get
          (bytesOf "nodes.foo")
        = (some (bytesOf "\x7b\"Headers\":null,\"Body\":null,\"StatusCode\":0\x7d"), none) := by
  decide

/-- C4, on the code: with an unreachable cache, `GET /nodes/foo` makes the handler
panic on the nil item after counting a hit; nothing is sent upstream and nothing
is written to the client, although the upstream would answer `200`. -/
theorem C4_cache_error_panics :
    downCache.Get (bytesOf "nodes.foo") = (none, some CacheError.ErrServer) ∧
      ∃ s', cacheRequest (sampleEnv true upstreamOK) getNodesFoo (freshWorld downCache)
          = Outcome.panicked s' ∧
        s'.upstreamCalls = [] ∧ s'.w.calls = [] ∧
        s'.metrics = [MetricEvent.timer (bytesOf "nodes.foo.cache.query"),
          MetricEvent.counterInc (bytesOf "nodes.foo.cache.hit") 1] :=
  ⟨rfl, _, rfl, rfl, rfl, by decide⟩

/-- C5, on the code: with the entry `{"StatusCode":500,"Body":5}` under
`nodes.foo`, whose decoding fails with a type error, `GET /nodes/foo` counts a
hit, sends nothing upstream and writes the partly decoded status `500` with a nil
body to the client, although the upstream would answer `200`. -/
theorem C5_decode_failure_served_as_hit :
    (Unmarshal (bytesOf "\x7b\"StatusCode\":500,\"Body\":5\x7d") CachedResponse.zero).2
        = some JSONError.UnmarshalTypeError ∧
      (cacheRequest (sampleEnv true upstreamOK) getNodesFoo (freshWorld
          (cacheWith (bytesOf "nodes.foo")
            (bytesOf "\x7b\"StatusCode\":500,\"Body\":5\x7d")))).world.metrics
        = [MetricEvent.timer (bytesOf "nodes.foo.cache.query"),
            MetricEvent.counterInc (bytesOf "nodes.foo.cache.hit") 1] ∧
      (cacheRequest (sampleEnv true upstreamOK) getNodesFoo (freshWorld
          (cacheWith (bytesOf "nodes.foo")
            (bytesOf "\x7b\"StatusCode\":500,\"Body\":5\x7d")))).world.upstreamCalls
        = [] ∧
      (cacheRequest (sampleEnv true upstreamOK) getNodesFoo (freshWorld
          (cacheWith (bytesOf "nodes.foo")
            (bytesOf "\x7b\"StatusCode\":500,\"Body\":5\x7d")))).world.w.calls
        = [WriterCall.WriteHeader 500, WriterCall.Write none] := by
  decide

/-- C6, on the code: on a miss with an upstream that refuses the connection the
handler issues two status-plus-body writes, the error response of `errorHandler`
and then the final `WriteHeader` and `Write` of the zero envelope; and when the
rewritten URL does not parse it panics having issued none. -/
theorem C6_terminal_writes_not_one :
    (cacheRequest (sampleEnv true refused) getNodesFoo (freshWorld emptyCache)).world.w.calls
        = [WriterCall.errorHandler
            (bytesOf "Call to http://127.0.0.1:8000/nodes/foo? failed: connection refused") 502,
          WriterCall.WriteHeader 0, WriterCall.Write none] ∧
      terminalWrites
        (cacheRequest (sampleEnv true refused) getNodesFoo (freshWorld emptyCache)).world.w.calls
        = 2 ∧
      ∃ s', cacheRequest (sampleEnv false refused) getNodesFoo (freshWorld emptyCache)
          = Outcome.panicked s' ∧ terminalWrites s'.w.calls = 0 :=
  ⟨by decide, by decide, _, rfl, rfl⟩

/-! ## `invalidateCache` -/

theorem Delete_store (mc : Memcache) (key k : GoString) (h : mc.reachable = true) :
    (mc.Delete key).1.reachable = true ∧
      (mc.Delete key).1.store k = if k = key then none else mc.store k := by
  unfold Memcache.Delete
  rw [if_pos h]
  cases hs : mc.store key with
  | none =>
    refine ⟨h, ?_⟩
    by_cases e : k = key
    · rw [if_pos e, e]; exact hs
    · rw [if_neg e]
  | some v => exact ⟨h, rfl⟩

theorem invalidateCache_cache (env : Env) (r : Request) (s : World) (u0 : URL)
    (hurl : r.URL = some u0) :
    (invalidateCache env r s).world.mc = (s.mc.Delete (invalidateCacheKey u0.Path)).1 ∧
      (invalidateCache env r s).world.cacheSets = s.cacheSets := by
  unfold invalidateCache
  simp only [hurl]
  cases env.RoundTrip
      { r with URL := (match env.urlParse (upstreamURL env u0.Path u0.RawQuery) with
        | Except.error _ => none
        | Except.ok u => some u) } with
  | error err =>
    cases env.urlParse (upstreamURL env u0.Path u0.RawQuery) with
    | error _ => exact ⟨rfl, rfl⟩
    | ok u => exact ⟨rfl, rfl⟩
  | ok resp =>
    simp only
    split
    · exact ⟨rfl, rfl⟩
    · exact ⟨rfl, rfl⟩

/-- C7: for every request to path `P` handled by `invalidateCache` against a
reachable cache, whatever the URL parser and the upstream do, the cache
afterwards is the cache before with the entry of the key of `P` removed: that
entry is absent, every other key is unchanged, the cache is still reachable, and
the handler has performed no cache `Set`. -/
theorem C7_invalidation_effect (env : Env) (r : Request) (s : World) (u0 : URL)
    (hurl : r.URL = some u0) (hreach : s.mc.reachable = true) :
    (invalidateCache env r s).world.mc.reachable = true ∧
      (invalidateCache env r s).world.mc.store (invalidateCacheKey u0.Path) = none ∧
      (∀ k, k ≠ invalidateCacheKey u0.Path →
        (invalidateCache env r s).world.mc.store k = s.mc.store k) ∧
      (invalidateCache env r s).world.cacheSets = s.cacheSets := by
  obtain ⟨hmc, hsets⟩ := invalidateCache_cache env r s u0 hurl
  rw [hmc]
  refine ⟨(Delete_store s.mc _ [] hreach).1, ?_, ?_, hsets⟩
  · rw [(Delete_store s.mc _ _ hreach).2, if_pos rfl]
  · intro k hk
    rw [(Delete_store s.mc _ _ hreach).2, if_neg hk]

/-- C7 at `GET /nodes/foo` with an entry under `nodes.foo` and a failing upstream. -/
theorem C7_invalidation_effect_witness :
    getNodesFoo.URL = some ⟨bytesOf "/nodes/foo", [], bytesOf "/nodes/foo"⟩ ∧
      (cacheWith (bytesOf "nodes.foo") (bytesOf "x")).reachable = true ∧
      (invalidateCache (sampleEnv true refused) getNodesFoo
        (freshWorld (cacheWith (bytesOf "nodes.foo") (bytesOf "x")))).world.mc.reachable = true ∧
      (invalidateCache (sampleEnv true refused) getNodesFoo
        (freshWorld (cacheWith (bytesOf "nodes.foo") (bytesOf "x")))).world.mc.store
          (invalidateCacheKey (bytesOf "/nodes/foo")) = none ∧
      (∀ k, k ≠ invalidateCacheKey (bytesOf "/nodes/foo") →
        (invalidateCache (sampleEnv true refused) getNodesFoo
          (freshWorld (cacheWith (bytesOf "nodes.foo") (bytesOf "x")))).world.mc.store k
          = (cacheWith (bytesOf "nodes.foo") (bytesOf "x")).store k) ∧
      (invalidateCache (sampleEnv true refused) getNodesFoo
        (freshWorld (cacheWith (bytesOf "nodes.foo") (bytesOf "x")))).world.cacheSets = [] :=
  ⟨rfl, rfl,
    C7_invalidation_effect (sampleEnv true refused) getNodesFoo
      (freshWorld (cacheWith (bytesOf "nodes.foo") (bytesOf "x")))
      ⟨bytesOf "/nodes/foo", [], bytesOf "/nodes/foo"⟩ rfl rfl⟩

end ChefGuard
